import Mathlib

/-!
A shallow embedding of the two YellowDB example components
(`src/examples/cache_layer.py` and `src/examples/session_store.py`)
together with proofs about their lifecycle and consistency logic.

Modelling conventions:
* The underlying ordered key-value store (an external collaborator per the
  design) is a strictly key-sorted association list; `scan` returns the
  suffix starting at the first key that is not below the start key, which
  is the store contract the components assume.
* Wall-clock timestamps are integers passed explicitly; every reading of
  the clock inside one component operation yields that operation's `now`.
* Serialization is an external collaborator assumed invertible, so stored
  byte strings are identified with their decoded form: a cache value
  record holds the application value, a metadata record holds the parsed
  metadata object, a session record holds the parsed session object.
  Encoded records are never the empty byte string, so Python truthiness
  tests on fetched bytes coincide with presence tests.
* Operations that would raise a decode exception on a type-confused
  record return `none` at the top level (errors propagate, per design).
-/

namespace YellowDB

/-- Keys of the underlying store (byte strings in the source). -/
abbrev Key := String

/-- `strHasPfx p k` models Python `k.startswith(p)`. -/
def strHasPfx (p k : Key) : Bool := p.data.isPrefixOf k.data

/-- Executable lexicographic comparison of byte strings (the store's key
order); kept kernel-reducible so that concrete states evaluate. -/
def charsLt : List Char → List Char → Bool
  | [], [] => false
  | [], _ :: _ => true
  | _ :: _, [] => false
  | a :: as, b :: bs =>
    if a < b then true else if b < a then false else charsLt as bs

def keyLt (a b : Key) : Bool := charsLt a.data b.data

theorem charsLt_iff :
    ∀ {a b : List Char}, charsLt a b = true ↔ List.Lex (· < ·) a b := by
  intro a
  induction a with
  | nil =>
    intro b
    cases b with
    | nil =>
      exact iff_of_false (by simp [charsLt]) (List.Lex.not_nil_right _ _)
    | cons d bs =>
      exact iff_of_true (by simp [charsLt]) List.Lex.nil
  | cons c as ih =>
    intro b
    cases b with
    | nil =>
      exact iff_of_false (by simp [charsLt]) (List.Lex.not_nil_right _ _)
    | cons d bs =>
      rw [charsLt]
      by_cases h1 : c < d
      · rw [if_pos h1]
        exact iff_of_true rfl (List.Lex.rel h1)
      · rw [if_neg h1]
        by_cases h2 : d < c
        · rw [if_pos h2]
          refine iff_of_false (by simp) ?_
          intro hl
          cases hl with
          | rel h => exact h1 h
          | cons h => exact lt_irrefl _ h2
        · rw [if_neg h2]
          have hcd : c = d := le_antisymm (le_of_not_lt h2) (le_of_not_lt h1)
          subst hcd
          exact ih.trans (List.Lex.cons_iff).symm

theorem keyLt_iff {a b : Key} : keyLt a b = true ↔ a < b := by
  rw [keyLt, charsLt_iff, String.lt_iff_toList_lt]
  exact Iff.rfl

theorem keyLt_not_iff {a b : Key} : ¬ keyLt a b = true ↔ ¬ a < b :=
  not_congr keyLt_iff

/-- The ordered key-value store: an association list kept strictly sorted
by key, with values of type `β`. -/
abbrev Store (β : Type) := List (Key × β)

namespace Store

variable {β : Type}

/-- Point read: `KeyValueStore.get`. -/
def get? : Store β → Key → Option β
  | [], _ => none
  | e :: rest, k => if e.1 = k then some e.2 else get? rest k

/-- Point write: `KeyValueStore.set` (insert or replace, keeping order). -/
def put : Store β → Key → β → Store β
  | [], k, v => [(k, v)]
  | e :: rest, k, v =>
    if keyLt k e.1 then (k, v) :: e :: rest
    else if k = e.1 then (k, v) :: rest
    else e :: put rest k v

/-- Point delete: `KeyValueStore.delete` (idempotent). -/
def del : Store β → Key → Store β
  | [], _ => []
  | e :: rest, k => if e.1 = k then del rest k else e :: del rest k

/-- Ordered forward scan from `start`: the suffix of the store holding
every entry whose key is not below `start`, in key order. -/
def scan (s : Store β) (start : Key) : List (Key × β) :=
  s.dropWhile (fun e => keyLt e.1 start)

/-- Well-formedness of a store: strictly sorted by key. -/
def WF (s : Store β) : Prop := List.Pairwise (fun a b => a.1 < b.1) s

theorem WF.tail {e : Key × β} {s : Store β} (h : WF (e :: s)) : WF s :=
  (List.pairwise_cons.mp h).2

theorem WF.head {e : Key × β} {s : Store β} (h : WF (e :: s)) :
    ∀ x ∈ s, e.1 < x.1 :=
  (List.pairwise_cons.mp h).1

theorem WF_cons {e : Key × β} {s : Store β} (h1 : ∀ x ∈ s, e.1 < x.1)
    (h2 : WF s) : WF (e :: s) :=
  List.pairwise_cons.mpr ⟨h1, h2⟩

theorem get?_cons (e : Key × β) (rest : Store β) (k : Key) :
    get? (e :: rest) k = if e.1 = k then some e.2 else get? rest k := rfl

theorem put_cons (e : Key × β) (rest : Store β) (k : Key) (v : β) :
    put (e :: rest) k v =
      if keyLt k e.1 then (k, v) :: e :: rest
      else if k = e.1 then (k, v) :: rest
      else e :: put rest k v := rfl

theorem del_cons (e : Key × β) (rest : Store β) (k : Key) :
    del (e :: rest) k = if e.1 = k then del rest k else e :: del rest k := rfl

theorem get?_put_self (s : Store β) (k : Key) (v : β) :
    get? (put s k v) k = some v := by
  induction s with
  | nil => simp [put, get?]
  | cons e rest ih =>
    rw [put_cons]
    by_cases h1 : k < e.1
    · rw [if_pos (keyLt_iff.mpr h1), get?_cons, if_pos rfl]
    · rw [if_neg (keyLt_not_iff.mpr h1)]
      by_cases h2 : k = e.1
      · rw [if_pos h2, get?_cons, if_pos rfl]
      · have hne : e.1 ≠ k := fun h => h2 h.symm
        rw [if_neg h2, get?_cons, if_neg hne, ih]

theorem get?_put_ne (s : Store β) {j k : Key} (v : β) (h : j ≠ k) :
    get? (put s k v) j = get? s j := by
  have hkj : k ≠ j := fun hh => h hh.symm
  induction s with
  | nil =>
    show (if k = j then some v else none) = none
    rw [if_neg hkj]
  | cons e rest ih =>
    rw [put_cons]
    by_cases h1 : k < e.1
    · rw [if_pos (keyLt_iff.mpr h1), get?_cons, if_neg hkj, get?_cons]
    · rw [if_neg (keyLt_not_iff.mpr h1)]
      by_cases h2 : k = e.1
      · have hej : e.1 ≠ j := fun hh => hkj (h2.trans hh)
        rw [if_pos h2, get?_cons, if_neg hkj, get?_cons, if_neg hej]
      · rw [if_neg h2, get?_cons, get?_cons, ih]

theorem get?_del_self (s : Store β) (k : Key) : get? (del s k) k = none := by
  induction s with
  | nil => rfl
  | cons e rest ih =>
    rw [del_cons]
    by_cases h : e.1 = k
    · rw [if_pos h, ih]
    · rw [if_neg h, get?_cons, if_neg h, ih]

theorem get?_del_ne (s : Store β) {j k : Key} (h : j ≠ k) :
    get? (del s k) j = get? s j := by
  induction s with
  | nil => rfl
  | cons e rest ih =>
    rw [del_cons]
    by_cases hk : e.1 = k
    · have hj : e.1 ≠ j := fun hh => h (hh.symm.trans hk)
      rw [if_pos hk, get?_cons, if_neg hj, ih]
    · rw [if_neg hk, get?_cons, get?_cons, ih]

/-- A binding found by `get?` is a member of the store. -/
theorem mem_of_get?_eq_some {s : Store β} {k : Key} {v : β}
    (h : get? s k = some v) : (k, v) ∈ s := by
  induction s with
  | nil => exact absurd h (by simp [get?])
  | cons e rest ih =>
    rw [get?_cons] at h
    by_cases hk : e.1 = k
    · rw [if_pos hk] at h
      have hv : e.2 = v := Option.some_injective _ h
      have : e = (k, v) := Prod.ext hk hv
      rw [← this]
      exact List.mem_cons_self e rest
    · rw [if_neg hk] at h
      exact List.mem_cons_of_mem _ (ih h)

/-- In a well-formed store, every binding is found by `get?`. -/
theorem get?_eq_some_of_mem {s : Store β} {k : Key} {v : β}
    (hwf : WF s) (h : (k, v) ∈ s) : get? s k = some v := by
  induction s with
  | nil => exact absurd h (List.not_mem_nil _)
  | cons e rest ih =>
    rw [get?_cons]
    rcases List.mem_cons.mp h with h | h
    · rw [← h]
      rw [if_pos rfl]
    · have hlt : e.1 < k := hwf.head (k, v) h
      rw [if_neg (ne_of_lt hlt), ih hwf.tail h]

/-- Every entry of `s.put k v` either is the new binding or was in `s`. -/
theorem mem_put {s : Store β} {k : Key} {v : β} {x : Key × β}
    (hx : x ∈ put s k v) : x = (k, v) ∨ x ∈ s := by
  induction s with
  | nil =>
    simp only [put, List.mem_singleton] at hx
    exact Or.inl hx
  | cons f rs ihr =>
    rw [put_cons] at hx
    by_cases g1 : k < f.1
    · rw [if_pos (keyLt_iff.mpr g1)] at hx
      rcases List.mem_cons.mp hx with h | h
      · exact Or.inl h
      · exact Or.inr h
    · rw [if_neg (keyLt_not_iff.mpr g1)] at hx
      by_cases g2 : k = f.1
      · rw [if_pos g2] at hx
        rcases List.mem_cons.mp hx with h | h
        · exact Or.inl h
        · exact Or.inr (List.mem_cons_of_mem _ h)
      · rw [if_neg g2] at hx
        rcases List.mem_cons.mp hx with h | h
        · exact Or.inr (h ▸ List.mem_cons_self f rs)
        · rcases ihr h with h | h
          · exact Or.inl h
          · exact Or.inr (List.mem_cons_of_mem _ h)

theorem WF_put {s : Store β} (hwf : WF s) (k : Key) (v : β) :
    WF (put s k v) := by
  induction s with
  | nil =>
    refine WF_cons ?_ List.Pairwise.nil
    intro x hx
    exact absurd hx (List.not_mem_nil _)
  | cons e rest ih =>
    rw [put_cons]
    by_cases h1 : k < e.1
    · rw [if_pos (keyLt_iff.mpr h1)]
      refine WF_cons ?_ hwf
      intro x hx
      rcases List.mem_cons.mp hx with h | h
      · rw [h]
        exact h1
      · exact h1.trans (hwf.head x h)
    · rw [if_neg (keyLt_not_iff.mpr h1)]
      by_cases h2 : k = e.1
      · rw [if_pos h2]
        refine WF_cons ?_ hwf.tail
        intro x hx
        rw [h2]
        exact hwf.head x hx
      · have hgt : e.1 < k := by
          rcases lt_trichotomy k e.1 with h | h | h
          · exact absurd h h1
          · exact absurd h h2
          · exact h
        rw [if_neg h2]
        refine WF_cons ?_ (ih hwf.tail)
        intro x hx
        rcases mem_put hx with h | h
        · rw [h]
          exact hgt
        · exact hwf.head x h

/-- Deletion only removes entries. -/
theorem mem_del {s : Store β} {k : Key} {x : Key × β} (h : x ∈ del s k) :
    x ∈ s := by
  induction s with
  | nil => exact absurd h (List.not_mem_nil _)
  | cons e rest ih =>
    rw [del_cons] at h
    by_cases hk : e.1 = k
    · rw [if_pos hk] at h
      exact List.mem_cons_of_mem _ (ih h)
    · rw [if_neg hk] at h
      rcases List.mem_cons.mp h with h | h
      · exact h ▸ List.mem_cons_self e rest
      · exact List.mem_cons_of_mem _ (ih h)

theorem WF_del {s : Store β} (hwf : WF s) (k : Key) : WF (del s k) := by
  induction s with
  | nil => exact hwf
  | cons e rest ih =>
    rw [del_cons]
    by_cases hk : e.1 = k
    · rw [if_pos hk]
      exact ih hwf.tail
    · rw [if_neg hk]
      refine WF_cons ?_ (ih hwf.tail)
      intro x hx
      exact hwf.head x (mem_del hx)

end Store

/-! ### Lexicographic order and key namespacing

The store orders keys lexicographically, so a forward scan from a
namespace marker visits all keys sharing that marker contiguously; these
lemmas justify the "scan then break on first mismatch" enumeration used
by the bulk operations. -/

theorem str_lt_iff {a b : Key} :
    a < b ↔ List.Lex (· < ·) a.data b.data := by
  rw [String.lt_iff_toList_lt]
  exact Iff.rfl

theorem str_le_iff {a b : Key} :
    a ≤ b ↔ ¬ List.Lex (· < ·) b.data a.data := by
  constructor
  · intro h hlex
    exact absurd (str_lt_iff.mpr hlex) (not_lt_of_le h)
  · intro h
    rcases le_or_lt a b with h' | h'
    · exact h'
    · exact absurd (str_lt_iff.mp h') h

theorem lex_append_not_lt (p t : List Char) :
    ¬ List.Lex (· < ·) (p ++ t) p := by
  induction p with
  | nil => exact List.Lex.not_nil_right _ _
  | cons c p' ih =>
    intro h
    cases h with
    | cons h => exact ih h
    | rel h => exact lt_irrefl _ h

theorem lex_of_not_lt_not_pfx :
    ∀ (p b : List Char), ¬ List.Lex (· < ·) b p →
      p.isPrefixOf b = false → ∀ t, List.Lex (· < ·) (p ++ t) b := by
  intro p
  induction p with
  | nil =>
    intro b _ h2 t
    simp at h2
  | cons c p' ih =>
    intro b h1 h2 t
    cases b with
    | nil => exact absurd List.Lex.nil h1
    | cons d b' =>
      rcases lt_trichotomy c d with h | h | h
      · exact List.Lex.rel h
      · subst h
        have h2' : p'.isPrefixOf b' = false := by
          simpa [List.isPrefixOf] using h2
        have h1' : ¬ List.Lex (· < ·) b' p' := fun hl => h1 (List.Lex.cons hl)
        exact List.Lex.cons (ih b' h1' h2' t)
      · exact absurd (List.Lex.rel h) h1

/-- A marked key decomposes as marker plus remainder. -/
theorem pfx_exists_append :
    ∀ {p k : List Char}, p.isPrefixOf k = true → ∃ t, p ++ t = k := by
  intro p
  induction p with
  | nil =>
    intro k _
    exact ⟨k, rfl⟩
  | cons c p' ih =>
    intro k h
    cases k with
    | nil => simp [List.isPrefixOf] at h
    | cons d k' =>
      rw [List.isPrefixOf, Bool.and_eq_true, beq_iff_eq] at h
      obtain ⟨t, ht⟩ := ih h.2
      exact ⟨t, by rw [List.cons_append, ht, h.1]⟩

/-- A key carrying the namespace marker `p` is not below `p`. -/
theorem le_of_pfx {p k : Key} (h : strHasPfx p k = true) : p ≤ k := by
  obtain ⟨t, ht⟩ := pfx_exists_append h
  rw [str_le_iff, ← ht]
  exact lex_append_not_lt p.data t

/-- A key with the namespace marker `p` sorts strictly below any key that
is at or above `p` but lacks the marker: the marked keys are contiguous. -/
theorem lt_of_pfx_of_not_pfx {p a b : Key} (ha : strHasPfx p a = true)
    (hble : p ≤ b) (hb : strHasPfx p b = false) : a < b := by
  obtain ⟨t, ht⟩ := pfx_exists_append ha
  rw [str_lt_iff, ← ht]
  exact lex_of_not_lt_not_pfx p.data b.data (str_le_iff.mp hble) hb t

namespace Store

variable {β : Type}

/-- On lists where the predicate can only turn from true to false along
the pairwise order, stopping at the first failure sees every success. -/
theorem takeWhile_eq_filter {pred : Key × β → Bool} :
    ∀ {l : List (Key × β)},
      List.Pairwise (fun a b => pred b = true → pred a = true) l →
      l.takeWhile pred = l.filter pred := by
  intro l
  induction l with
  | nil => intro _; rfl
  | cons e rest ih =>
    intro hp
    by_cases he : pred e = true
    · rw [List.takeWhile_cons_of_pos he, List.filter_cons_of_pos he,
        ih (List.pairwise_cons.mp hp).2]
    · have he' : ¬ pred e = true := he
      rw [List.takeWhile_cons_of_neg he', List.filter_cons_of_neg he']
      symm
      rw [List.filter_eq_nil_iff]
      intro a ha hpa
      exact he ((List.pairwise_cons.mp hp).1 a ha hpa)

theorem scan_cons (e : Key × β) (rest : Store β) (p : Key) :
    scan (e :: rest) p = if e.1 < p then scan rest p else e :: rest := by
  rw [scan, List.dropWhile_cons]
  by_cases h : e.1 < p
  · rw [if_pos (keyLt_iff.mpr h), if_pos h]
    rfl
  · rw [if_neg (keyLt_not_iff.mpr h), if_neg h]

/-- Every entry surviving the scan is at or above the start key. -/
theorem scan_keys_ge {s : Store β} (hwf : WF s) (p : Key) :
    ∀ e ∈ scan s p, p ≤ e.1 := by
  induction s with
  | nil => intro e he; exact absurd he (List.not_mem_nil _)
  | cons e rest ih =>
    rw [scan_cons]
    by_cases h : e.1 < p
    · rw [if_pos h]
      exact ih hwf.tail
    · rw [if_neg h]
      intro x hx
      rcases List.mem_cons.mp hx with hx | hx
      · rw [hx]
        exact le_of_not_lt h
      · exact (le_of_not_lt h).trans (le_of_lt (hwf.head x hx))

theorem WF_scan {s : Store β} (hwf : WF s) (p : Key) : WF (scan s p) :=
  List.Pairwise.sublist (List.dropWhile_sublist _) hwf

/-- The "scan from the namespace marker, stop at the first key without
it" loop enumerates exactly the entries whose key carries the marker. -/
theorem scan_take_eq_filter {s : Store β} (hwf : WF s) (p : Key) :
    (scan s p).takeWhile (fun e => strHasPfx p e.1) =
      s.filter (fun e => strHasPfx p e.1) := by
  have hmono : List.Pairwise
      (fun a b : Key × β => strHasPfx p b.1 = true → strHasPfx p a.1 = true)
      (scan s p) := by
    have hge := scan_keys_ge hwf p
    refine (WF_scan hwf p).imp_of_mem ?_
    intro a b ha _ hab hb
    by_contra hna
    have hna' : strHasPfx p a.1 = false := by
      simpa using hna
    exact absurd hab (not_lt_of_le
      (le_of_lt (lt_of_pfx_of_not_pfx hb (hge a ha) hna')))
  rw [takeWhile_eq_filter hmono]
  conv_rhs => rw [← List.takeWhile_append_dropWhile
    (p := fun e : Key × β => keyLt e.1 p) (l := s)]
  rw [List.filter_append]
  have hnil : (s.takeWhile (fun e : Key × β => keyLt e.1 p)).filter
      (fun e => strHasPfx p e.1) = [] := by
    rw [List.filter_eq_nil_iff]
    intro a ha hpa
    have hlt : a.1 < p := by
      have h' := List.mem_takeWhile_imp ha
      exact keyLt_iff.mp h'
    exact absurd (le_of_pfx hpa) (not_le_of_lt hlt)
  rw [hnil, List.nil_append]
  rfl

end Store

/-! ### Store mutations and atomic batches -/

/-- A single store mutation issued by a component. -/
inductive Op (β : Type) where
  | put (k : Key) (v : β)
  | del (k : Key)
deriving DecidableEq

/-- One store interaction: either a point operation or one atomic batch
(a `with Batch(self.db) as batch:` scope in the source). -/
inductive Eff (β : Type) where
  | point (o : Op β)
  | batch (os : List (Op β))
deriving DecidableEq

def applyOp {β : Type} (s : Store β) : Op β → Store β
  | .put k v => Store.put s k v
  | .del k => Store.del s k

def applyOps {β : Type} (s : Store β) (os : List (Op β)) : Store β :=
  os.foldl applyOp s

def applyEff {β : Type} (s : Store β) : Eff β → Store β
  | .point o => applyOp s o
  | .batch os => applyOps s os

/-- Applying a component operation's store interactions in order. -/
def applyEffs {β : Type} (s : Store β) (es : List (Eff β)) : Store β :=
  es.foldl applyEff s

/-! ### CacheLayer data model (`src/examples/cache_layer.py`) -/

/-- The parsed metadata object stored under `meta:K`. -/
structure MetaRec where
  key : String
  created_at : Int
  expires_at : Int
  ttl : Int
  size_bytes : Nat
deriving DecidableEq

/-- A record of the cache database: the decoded form of the stored bytes,
either a serialized application value (under a `cache:` key) or a
serialized metadata object (under a `meta:` key). -/
inductive CVal (α : Type) where
  | val (v : α)
  | meta (m : MetaRec)
deriving DecidableEq

def asVal {α : Type} : CVal α → Option α
  | .val v => some v
  | .meta _ => none

def asMeta {α : Type} : CVal α → Option MetaRec
  | .val _ => none
  | .meta m => some m

/-- `f"{self.cache_prefix}{key}"` with `cache_prefix = "cache:"`. -/
def cacheKey (k : String) : Key := "cache:" ++ k

/-- `f"{self.metadata_prefix}{key}"` with `metadata_prefix = "meta:"`. -/
def metaKey (k : String) : Key := "meta:" ++ k

/-- `ttl = ttl or self.default_ttl`: in Python both `None` and `0` are
falsy, so both select the default. -/
def resolveTtl (ttl? : Option Int) (dflt : Int) : Int :=
  match ttl? with
  | none => dflt
  | some t => if t = 0 then dflt else t

/-- The in-memory state of a `CacheLayer` instance: the store handle's
contents plus the four local statistics counters. -/
structure CacheState (α : Type) where
  db : Store (CVal α)
  hits : Nat
  misses : Nat
  writes : Nat
  evictions : Nat
deriving DecidableEq

namespace CacheLayer

variable {α : Type}

/-- `CacheLayer.set(key, value, ttl)`: build the metadata record
(`created_at = now`, `expires_at = now + ttl`, `size_bytes` the length of
the serialized value as measured by `vsize`), write both records in one
atomic batch, and count one write.  `dflt` is `self.default_ttl`. -/
def set (dflt : Int) (vsize : α → Nat) (now : Int) (key : String)
    (value : α) (ttl? : Option Int) (s : CacheState α) :
    CacheState α × List (Eff (CVal α)) :=
  let ttl := resolveTtl ttl? dflt
  let m : MetaRec :=
    { key := key, created_at := now, expires_at := now + ttl,
      ttl := ttl, size_bytes := vsize value }
  let effs : List (Eff (CVal α)) :=
    [Eff.batch [Op.put (cacheKey key) (CVal.val value),
                Op.put (metaKey key) (CVal.meta m)]]
  ({ s with db := applyEffs s.db effs, writes := s.writes + 1 }, effs)

/-- `CacheLayer.delete(key)`: delete both records in one atomic batch and
count one eviction, whether or not the keys existed. -/
def delete (key : String) (s : CacheState α) :
    CacheState α × List (Eff (CVal α)) :=
  let effs : List (Eff (CVal α)) :=
    [Eff.batch [Op.del (cacheKey key), Op.del (metaKey key)]]
  ({ s with db := applyEffs s.db effs, evictions := s.evictions + 1 }, effs)

/-- `CacheLayer.get(key, loader_fn, ttl)`.  `loader?` is the value the
supplied zero-argument `loader_fn` would return (`none` when no loader is
passed).  The outer `Option` is the exception channel: `none` models a
decode failure propagating to the caller.  Stored records decode to
nonempty byte strings, so the source's truthiness tests on the fetched
bytes are presence tests here.  A hit whose value bytes fail to decode
raises after the hit was counted; that lost partial state is out of the
model (no claim touches it). -/
def get (dflt : Int) (vsize : α → Nat) (now : Int) (key : String)
    (loader? : Option α) (ttl? : Option Int) (s : CacheState α) :
    Option (Option α × CacheState α × List (Eff (CVal α))) :=
  -- code after `self.stats["misses"] += 1`, entered with the state and
  -- store interactions accumulated so far
  let missFrom : CacheState α → List (Eff (CVal α)) →
      Option α × CacheState α × List (Eff (CVal α)) :=
    fun s1 effs =>
      let s2 := { s1 with misses := s1.misses + 1 }
      match loader? with
      | some v =>
        let r := set dflt vsize now key v ttl? s2
        (some v, r.1, effs ++ r.2)
      | none => (none, s2, effs)
  match Store.get? s.db (cacheKey key) with
  | none => some (missFrom s [])
  | some cv =>
    match Store.get? s.db (metaKey key) with
    | some mv =>
      match asMeta mv with
      | none => none
      | some md =>
        if now < md.expires_at then
          match asVal cv with
          | some v => some (some v, { s with hits := s.hits + 1 }, [])
          | none => none
        else
          -- two separate point deletes, not a batch
          let effs : List (Eff (CVal α)) :=
            [Eff.point (Op.del (cacheKey key)),
             Eff.point (Op.del (metaKey key))]
          some (missFrom { s with db := applyEffs s.db effs } effs)
    | none =>
      let effs : List (Eff (CVal α)) :=
        [Eff.point (Op.del (cacheKey key)),
         Eff.point (Op.del (metaKey key))]
      some (missFrom { s with db := applyEffs s.db effs } effs)

/-- The scan loop of `clear_expired`: for each scanned metadata record,
append `metadata["key"]` when `current_time > expires_at`.  `none` models
`json.loads` raising on a record that is not a metadata object. -/
def collectExpired (now : Int) :
    List (Key × CVal α) → Option (List String)
  | [] => some []
  | (_, v) :: rest =>
    match asMeta v with
    | none => none
    | some md =>
      match collectExpired now rest with
      | none => none
      | some tl => some (if now > md.expires_at then md.key :: tl else tl)

/-- `CacheLayer.clear_expired()`: scan the `meta:` namespace (stopping at
the first key outside it), collect the logical keys of records with
`current_time > expires_at`, delete all their `cache:`/`meta:` pairs in
one atomic batch, count them as evictions, and return the count. -/
def clear_expired (now : Int) (s : CacheState α) :
    Option (Nat × CacheState α × List (Eff (CVal α))) :=
  let scanned := (Store.scan s.db "meta:").takeWhile
    (fun e => strHasPfx "meta:" e.1)
  match collectExpired now scanned with
  | none => none
  | some expired =>
    if expired.isEmpty then some (expired.length, s, [])
    else
      let effs : List (Eff (CVal α)) :=
        [Eff.batch (expired.flatMap
          (fun k => [Op.del (cacheKey k), Op.del (metaKey k)]))]
      some (expired.length,
        { s with db := applyEffs s.db effs,
                 evictions := s.evictions + expired.length }, effs)

/-- `CacheLayer.warm_cache(data_dict, ttl)`: one consistent `now`, one
atomic batch covering both records of every entry, write counter
incremented by the mapping size, which is returned. -/
def warm_cache (dflt : Int) (vsize : α → Nat) (now : Int)
    (entries : List (String × α)) (ttl? : Option Int) (s : CacheState α) :
    Nat × CacheState α × List (Eff (CVal α)) :=
  let ttl := resolveTtl ttl? dflt
  let ops : List (Op (CVal α)) := entries.flatMap (fun e =>
    [Op.put (cacheKey e.1) (CVal.val e.2),
     Op.put (metaKey e.1) (CVal.meta
       { key := e.1, created_at := now, expires_at := now + ttl,
         ttl := ttl, size_bytes := vsize e.2 })])
  let effs : List (Eff (CVal α)) := [Eff.batch ops]
  (entries.length,
   { s with db := applyEffs s.db effs,
            writes := s.writes + entries.length },
   effs)

/-- The snapshot returned by `CacheLayer.get_stats` (the store-level
pass-through metric `memtable_size` belongs to the external store and is
not part of the model).  The hit rate is a rational standing for the
source's float percentage. -/
structure CacheStats where
  cache_hits : Nat
  cache_misses : Nat
  hit_rate_percent : ℚ
  total_writes : Nat
  total_evictions : Nat
  current_entries : Nat
  total_cached_size : Nat

/-- The scan loop of `get_stats`: count scanned metadata records and sum
their `size_bytes`; `none` models a decode failure. -/
def countAndSize :
    List (Key × CVal α) → Option (Nat × Nat)
  | [] => some (0, 0)
  | (_, v) :: rest =>
    match asMeta v with
    | none => none
    | some md =>
      match countAndSize rest with
      | none => none
      | some r => some (r.1 + 1, r.2 + md.size_bytes)

/-- `CacheLayer.get_stats()`: derive the hit rate from the local
counters, scan the `meta:` namespace for the live-entry count and
aggregate size, and return the snapshot.  The operation reads but never
mutates the store or the counters, which the returned state records. -/
def get_stats (s : CacheState α) :
    Option (CacheStats × CacheState α × List (Eff (CVal α))) :=
  let total_requests := s.hits + s.misses
  let hit_rate : ℚ :=
    if total_requests > 0 then (s.hits : ℚ) / (total_requests : ℚ) * 100
    else 0
  let scanned := (Store.scan s.db "meta:").takeWhile
    (fun e => strHasPfx "meta:" e.1)
  match countAndSize scanned with
  | none => none
  | some r =>
    some ({ cache_hits := s.hits, cache_misses := s.misses,
            hit_rate_percent := hit_rate, total_writes := s.writes,
            total_evictions := s.evictions, current_entries := r.1,
            total_cached_size := r.2 }, s, [])

end CacheLayer

/-! ### SessionStore data model (`src/examples/session_store.py`) -/

/-- The parsed session object stored under `session:S`; `δ` is the type
of the application fields in `data`, kept as a mapping with unique keys. -/
structure SessionRecord (δ : Type) where
  session_id : String
  user_id : String
  created_at : Int
  last_accessed : Int
  data : List (String × δ)
deriving DecidableEq

/-- `f"session:{session_id}"`. -/
def sessionKey (sid : String) : Key := "session:" ++ sid

namespace SessionStore

variable {δ : Type}

/-- Reading a Python dict field. -/
def lookup (d : List (String × δ)) (k : String) : Option δ :=
  (d.find? (fun p => p.1 == k)).map (fun p => p.2)

/-- Python `d.update(u)`: key-wise overwrite of listed keys, unlisted
keys untouched, new keys appended. -/
def dictUpdate (d u : List (String × δ)) : List (String × δ) :=
  d.map (fun p =>
    match u.find? (fun q => q.1 == p.1) with
    | some q => (p.1, q.2)
    | none => p) ++
  u.filter (fun q => (d.find? (fun p => p.1 == q.1)).isNone)

/-- `SessionStore.create_session`: the fresh high-entropy identifier is
generated externally and passed as `sid`; the record is written with
`created_at = last_accessed = now` by a single point write. -/
def create_session (now : Int) (sid user_id : String)
    (data : List (String × δ)) (db : Store (SessionRecord δ)) :
    Store (SessionRecord δ) :=
  Store.put db (sessionKey sid)
    { session_id := sid, user_id := user_id, created_at := now,
      last_accessed := now, data := data }

/-- `SessionStore.delete_session`: unconditional point delete. -/
def delete_session (sid : String) (db : Store (SessionRecord δ)) :
    Store (SessionRecord δ) :=
  Store.del db (sessionKey sid)

/-- `SessionStore.get_session`: absent gives absent; a record older than
`ttl` (strictly: `now - last_accessed > ttl_seconds`) is deleted and
absent is returned; otherwise `last_accessed` is refreshed to `now`, the
record written back, and the refreshed record returned. -/
def get_session (ttl now : Int) (sid : String)
    (db : Store (SessionRecord δ)) :
    Option (SessionRecord δ) × Store (SessionRecord δ) :=
  match Store.get? db (sessionKey sid) with
  | none => (none, db)
  | some sd =>
    if now - sd.last_accessed > ttl then
      (none, delete_session sid db)
    else
      let sd' := { sd with last_accessed := now }
      (some sd', Store.put db (sessionKey sid) sd')

/-- `SessionStore.update_session`: fetch through `get_session` (which
performs the liveness check, the touch, or the lazy deletion); on absent
return false; otherwise merge `u` into `data`, refresh `last_accessed`,
write back, return true. -/
def update_session (ttl now : Int) (sid : String) (u : List (String × δ))
    (db : Store (SessionRecord δ)) : Bool × Store (SessionRecord δ) :=
  match get_session ttl now sid db with
  | (none, db') => (false, db')
  | (some sd, db') =>
    let sd' : SessionRecord δ :=
      { sd with
        data := dictUpdate sd.data u
        last_accessed := now }
    (true, Store.put db' (sessionKey sid) sd')

/-- `SessionStore.cleanup_expired_sessions`: scan the `session:`
namespace (stopping at the first key outside it), collect the
`session_id` of every record with `now - last_accessed > ttl`, and
delete the collected records in one atomic batch (modelled as the
batch's sequential application); returns the count. -/
def cleanup_expired_sessions (ttl now : Int)
    (db : Store (SessionRecord δ)) : Nat × Store (SessionRecord δ) :=
  let scanned := (Store.scan db "session:").takeWhile
    (fun e => strHasPfx "session:" e.1)
  let expired := (scanned.filter
    (fun e => decide (now - e.2.last_accessed > ttl))).map
    (fun e => e.2.session_id)
  if expired.isEmpty then (expired.length, db)
  else (expired.length,
    expired.foldl (fun d sid => Store.del d (sessionKey sid)) db)

/-- The snapshot of `SessionStore.get_stats` (store-level pass-through
metrics belong to the external store and are not modelled). -/
structure SessionStats where
  total_sessions : Nat
deriving DecidableEq

/-- `SessionStore.get_stats()`: count every scanned record whose key
carries the `session:` marker (a filtered generator, no early break).
The operation reads but never mutates the store, which the returned
state records. -/
def get_stats (db : Store (SessionRecord δ)) :
    SessionStats × Store (SessionRecord δ) :=
  ({ total_sessions :=
      ((Store.scan db "session:").filter
        (fun e => strHasPfx "session:" e.1)).length }, db)

end SessionStore

/-! ### Key namespacing facts -/

theorem str_append_inj {p a b : String} (h : p ++ a = p ++ b) : a = b := by
  have h' : p.data ++ a.data = p.data ++ b.data := by
    have := congrArg String.data h
    rwa [String.data_append, String.data_append] at this
  exact String.toList_inj.mp (List.append_cancel_left h')

theorem cacheKey_inj {a b : String} (h : cacheKey a = cacheKey b) : a = b :=
  str_append_inj h

theorem metaKey_inj {a b : String} (h : metaKey a = metaKey b) : a = b :=
  str_append_inj h

theorem sessionKey_inj {a b : String} (h : sessionKey a = sessionKey b) :
    a = b :=
  str_append_inj h

theorem cacheKey_ne_metaKey (a b : String) : cacheKey a ≠ metaKey b := by
  intro h
  have h' : ("cache:" ++ a).data = ("meta:" ++ b).data := congrArg String.data h
  rw [String.data_append, String.data_append] at h'
  have hc : "cache:".data = ['c', 'a', 'c', 'h', 'e', ':'] := rfl
  have hm : "meta:".data = ['m', 'e', 't', 'a', ':'] := rfl
  rw [hc, hm] at h'
  simp at h'

theorem listPfx_append : ∀ (p t : List Char), p.isPrefixOf (p ++ t) = true := by
  intro p t
  induction p with
  | nil => simp [List.isPrefixOf]
  | cons c p' ih => simp [List.isPrefixOf, ih]

theorem metaKey_pfx (k : String) : strHasPfx "meta:" (metaKey k) = true := by
  have h : (metaKey k).data = "meta:".data ++ k.data := String.data_append _ _
  rw [strHasPfx, h]
  exact listPfx_append _ _

theorem sessionKey_pfx (k : String) :
    strHasPfx "session:" (sessionKey k) = true := by
  have h : (sessionKey k).data = "session:".data ++ k.data :=
    String.data_append _ _
  rw [strHasPfx, h]
  exact listPfx_append _ _

/-! ### Helper equations for the cache operations -/

theorem cache_set_db_eq {α : Type} (dflt : Int) (vsize : α → Nat)
    (now : Int) (key : String) (value : α) (ttl? : Option Int)
    (s : CacheState α) :
    (CacheLayer.set dflt vsize now key value ttl? s).1.db =
      Store.put (Store.put s.db (cacheKey key) (CVal.val value))
        (metaKey key)
        (CVal.meta
          { key := key, created_at := now,
            expires_at := now + resolveTtl ttl? dflt,
            ttl := resolveTtl ttl? dflt,
            size_bytes := vsize value }) := rfl

/-! ### C7: what `set` writes, and when the default TTL applies -/

/-- C7 counterexample: with `default_ttl = 5`, an explicit `ttl = 0` at
`now = 0` does not produce the claimed metadata record
`expires_at = created_at + 0, ttl = 0`; Python's `ttl or self.default_ttl`
treats `0` as falsy and substitutes the default. -/
theorem set_ttl_zero_not_honored :
    Store.get? (CacheLayer.set 5 (fun _ : Bool => 1) 0 "k" true (some 0)
        ⟨[], 0, 0, 0, 0⟩).1.db (metaKey "k") ≠
      some (CVal.meta
        { key := "k", created_at := 0, expires_at := 0 + 0,
          ttl := 0, size_bytes := 1 }) := by
  decide

/-- C7 (amended): for every explicit nonzero ttl, `set` writes a metadata
record with `created_at = now` and `expires_at = created_at + ttl`, the
value record alongside it, and counts one write; but the default TTL is
substituted both when the ttl argument is omitted and when it is `0`
(Python falsiness), not only when omitted. -/
theorem set_writes_metadata {α : Type} (dflt : Int) (vsize : α → Nat)
    (now : Int) (key : String) (value : α) (ttl : Int) (s : CacheState α)
    (httl : ttl ≠ 0) :
    Store.get? (CacheLayer.set dflt vsize now key value (some ttl) s).1.db
        (metaKey key) =
      some (CVal.meta
        { key := key, created_at := now, expires_at := now + ttl,
          ttl := ttl, size_bytes := vsize value }) ∧
    Store.get? (CacheLayer.set dflt vsize now key value (some ttl) s).1.db
        (cacheKey key) = some (CVal.val value) ∧
    (CacheLayer.set dflt vsize now key value (some ttl) s).1.writes =
      s.writes + 1 ∧
    Store.get? (CacheLayer.set dflt vsize now key value none s).1.db
        (metaKey key) =
      some (CVal.meta
        { key := key, created_at := now, expires_at := now + dflt,
          ttl := dflt, size_bytes := vsize value }) ∧
    Store.get? (CacheLayer.set dflt vsize now key value (some 0) s).1.db
        (metaKey key) =
      some (CVal.meta
        { key := key, created_at := now, expires_at := now + dflt,
          ttl := dflt, size_bytes := vsize value }) := by
  have hsome : resolveTtl (some ttl) dflt = ttl := by
    rw [resolveTtl]
    exact if_neg httl
  have hnone : resolveTtl none dflt = dflt := rfl
  have hzero : resolveTtl (some 0) dflt = dflt := by
    rw [resolveTtl]
    exact if_pos rfl
  refine ⟨?_, ?_, rfl, ?_, ?_⟩
  · rw [cache_set_db_eq, hsome, Store.get?_put_self]
  · rw [cache_set_db_eq,
      Store.get?_put_ne _ _ (cacheKey_ne_metaKey key key),
      Store.get?_put_self]
  · rw [cache_set_db_eq, hnone, Store.get?_put_self]
  · rw [cache_set_db_eq, hzero, Store.get?_put_self]

/-- Witness for `set_writes_metadata` at a concrete input. -/
theorem set_writes_metadata_witness :
    Store.get? (CacheLayer.set 7 (fun _ : Bool => 1) 2 "k" true (some 5)
        ⟨[], 0, 0, 3, 0⟩).1.db (metaKey "k") =
      some (CVal.meta
        { key := "k", created_at := 2, expires_at := 2 + 5,
          ttl := 5, size_bytes := 1 }) ∧
    Store.get? (CacheLayer.set 7 (fun _ : Bool => 1) 2 "k" true (some 5)
        ⟨[], 0, 0, 3, 0⟩).1.db (cacheKey "k") = some (CVal.val true) ∧
    (CacheLayer.set 7 (fun _ : Bool => 1) 2 "k" true (some 5)
        ⟨[], 0, 0, 3, 0⟩).1.writes = 3 + 1 ∧
    Store.get? (CacheLayer.set 7 (fun _ : Bool => 1) 2 "k" true none
        ⟨[], 0, 0, 3, 0⟩).1.db (metaKey "k") =
      some (CVal.meta
        { key := "k", created_at := 2, expires_at := 2 + 7,
          ttl := 7, size_bytes := 1 }) ∧
    Store.get? (CacheLayer.set 7 (fun _ : Bool => 1) 2 "k" true (some 0)
        ⟨[], 0, 0, 3, 0⟩).1.db (metaKey "k") =
      some (CVal.meta
        { key := "k", created_at := 2, expires_at := 2 + 7,
          ttl := 7, size_bytes := 1 }) :=
  set_writes_metadata 7 (fun _ : Bool => 1) 2 "k" true 5
    ⟨[], 0, 0, 3, 0⟩ (by decide)

/-! ### C1: set-then-get round trip inside the TTL window -/

/-- C1: for every key, value and ttl strictly above zero, `set` at time
`now₀` followed by `get` with no loader at any time `now` strictly
before `created_at + ttl` returns the value unchanged (the store holds
the serialized value; the decode inverts the encode) and records exactly
one hit, leaving every other counter and the store untouched. -/
theorem set_then_get_roundtrip {α : Type} (dflt : Int) (vsize : α → Nat)
    (now₀ now : Int) (key : String) (value : α) (ttl : Int)
    (s : CacheState α) (httl : 0 < ttl) (hnow : now < now₀ + ttl) :
    CacheLayer.get dflt vsize now key none none
        (CacheLayer.set dflt vsize now₀ key value (some ttl) s).1 =
      some (some value,
        { db := (CacheLayer.set dflt vsize now₀ key value (some ttl) s).1.db,
          hits := s.hits + 1, misses := s.misses,
          writes := s.writes + 1, evictions := s.evictions }, []) := by
  have httl' : ttl ≠ 0 := by
    intro h
    rw [h] at httl
    exact lt_irrefl 0 httl
  have hres : resolveTtl (some ttl) dflt = ttl := by
    rw [resolveTtl]
    exact if_neg httl'
  have h1 : Store.get?
      (CacheLayer.set dflt vsize now₀ key value (some ttl) s).1.db
      (cacheKey key) = some (CVal.val value) := by
    rw [cache_set_db_eq,
      Store.get?_put_ne _ _ (cacheKey_ne_metaKey key key),
      Store.get?_put_self]
  have h2 : Store.get?
      (CacheLayer.set dflt vsize now₀ key value (some ttl) s).1.db
      (metaKey key) =
      some (CVal.meta
        { key := key, created_at := now₀, expires_at := now₀ + ttl,
          ttl := ttl, size_bytes := vsize value }) := by
    rw [cache_set_db_eq, hres, Store.get?_put_self]
  rw [CacheLayer.get, h1, h2]
  simp only [asMeta, asVal]
  rw [if_pos hnow]
  rfl

/-- Witness for `set_then_get_roundtrip` at a concrete input. -/
theorem set_then_get_roundtrip_witness :
    CacheLayer.get 3600 (fun _ : Bool => 1) 4 "user" none none
        (CacheLayer.set 3600 (fun _ : Bool => 1) 0 "user" true (some 5)
          ⟨[], 0, 0, 0, 0⟩).1 =
      some (some true,
        ⟨(CacheLayer.set 3600 (fun _ : Bool => 1) 0 "user" true (some 5)
            ⟨[], 0, 0, 0, 0⟩).1.db, 0 + 1, 0, 0 + 1, 0⟩, []) :=
  set_then_get_roundtrip 3600 (fun _ : Bool => 1) 0 4 "user" true 5
    ⟨[], 0, 0, 0, 0⟩ (by decide) (by decide)

/-! ### Dictionary merge lemmas -/

theorem put_put_same {β : Type} (s : Store β) (k : Key) (v w : β) :
    Store.put (Store.put s k v) k w = Store.put s k w := by
  induction s with
  | nil =>
    show Store.put [(k, v)] k w = [(k, w)]
    rw [Store.put_cons, if_neg (keyLt_not_iff.mpr (lt_irrefl k)), if_pos rfl]
  | cons e rest ih =>
    rw [Store.put_cons]
    by_cases h1 : k < e.1
    · rw [if_pos (keyLt_iff.mpr h1), Store.put_cons,
        if_neg (keyLt_not_iff.mpr (lt_irrefl k)), if_pos rfl,
        Store.put_cons, if_pos (keyLt_iff.mpr h1)]
    · rw [if_neg (keyLt_not_iff.mpr h1)]
      by_cases h2 : k = e.1
      · rw [if_pos h2, Store.put_cons,
          if_neg (keyLt_not_iff.mpr (lt_irrefl k)), if_pos rfl,
          Store.put_cons, if_neg (keyLt_not_iff.mpr h1), if_pos h2]
      · rw [if_neg h2, Store.put_cons, if_neg (keyLt_not_iff.mpr h1),
          if_neg h2, ih, Store.put_cons, if_neg (keyLt_not_iff.mpr h1),
          if_neg h2]

/-- `lookup` after Python `d.update(u)`: keys present in the update
mapping take the update's value; every other key keeps its old binding. -/
theorem lookup_dictUpdate {δ : Type} (d u : List (String × δ)) (k : String) :
    SessionStore.lookup (SessionStore.dictUpdate d u) k =
      match SessionStore.lookup u k with
      | some w => some w
      | none => SessionStore.lookup d k := by
  rw [SessionStore.lookup, SessionStore.dictUpdate, List.find?_append]
  have hpred : ((fun q : String × δ => q.1 == k) ∘ (fun p =>
      match u.find? (fun q => q.1 == p.1) with
      | some q => (p.1, q.2)
      | none => p)) = (fun p : String × δ => p.1 == k) := by
    funext p
    show (((match u.find? (fun q => q.1 == p.1) with
      | some q => (p.1, q.2)
      | none => p) : String × δ).1 == k) = (p.1 == k)
    cases hf : u.find? (fun q : String × δ => q.1 == p.1) with
    | none => rfl
    | some q => rfl
  rw [List.find?_map, hpred]
  cases hd : List.find? (fun p : String × δ => p.1 == k) d with
  | some p =>
    have hpk : p.1 = k := by simpa using List.find?_some hd
    cases hu : u.find? (fun q : String × δ => q.1 == k) with
    | some q =>
      have hup : u.find? (fun qq : String × δ => qq.1 == p.1) = some q := by
        rw [hpk]
        exact hu
      rw [SessionStore.lookup, hu]
      simp [hup]
    | none =>
      have hup : u.find? (fun qq : String × δ => qq.1 == p.1) = none := by
        rw [hpk]
        exact hu
      rw [SessionStore.lookup, hu]
      simp [hup, SessionStore.lookup, hd]
  | none =>
    have hfilter : ∀ uu : List (String × δ),
        List.find? (fun q : String × δ => q.1 == k)
          (uu.filter (fun q =>
            (List.find? (fun p => p.1 == q.1) d).isNone)) =
        List.find? (fun q : String × δ => q.1 == k) uu := by
      intro uu
      induction uu with
      | nil => rfl
      | cons q us ihu =>
        by_cases hqk : q.1 = k
        · have hq : ((q.1 == k)) = true := by simp [hqk]
          have hcond : (List.find? (fun p : String × δ =>
              p.1 == q.1) d).isNone = true := by
            have h' : List.find? (fun p : String × δ => p.1 == q.1) d =
                none := by
              rw [List.find?_eq_none]
              intro x hx hbeq
              have hx1 : x.1 = k := by
                have hxq : x.1 = q.1 := by simpa using hbeq
                exact hxq.trans hqk
              exact (List.find?_eq_none.mp hd x hx) (by simp [hx1])
            rw [h']
            rfl
          rw [List.filter_cons, if_pos hcond,
            List.find?_cons_of_pos (p := fun q : String × δ => q.1 == k)
              _ hq,
            List.find?_cons_of_pos (p := fun q : String × δ => q.1 == k)
              _ hq]
        · have hq : ¬ ((q.1 == k)) = true := by simp [hqk]
          rw [List.filter_cons]
          cases hcond : (List.find? (fun p : String × δ =>
              p.1 == q.1) d).isNone with
          | true =>
            rw [if_pos rfl,
              List.find?_cons_of_neg (p := fun q : String × δ => q.1 == k)
                _ hq,
              List.find?_cons_of_neg (p := fun q : String × δ => q.1 == k)
                _ hq, ihu]
          | false =>
            rw [if_neg (by simp),
              List.find?_cons_of_neg (p := fun q : String × δ => q.1 == k)
                _ hq, ihu]
    show (Option.or none (List.find? (fun q : String × δ => q.1 == k)
      (u.filter (fun q =>
        (List.find? (fun p => p.1 == q.1) d).isNone)))).map
        (fun p => p.2) =
      match SessionStore.lookup u k with
      | some w => some w
      | none => SessionStore.lookup d k
    rw [Option.none_or, hfilter]
    rw [SessionStore.lookup]
    cases hu : List.find? (fun q : String × δ => q.1 == k) u with
    | none =>
      simp [SessionStore.lookup, hd]
    | some q =>
      simp

/-! ### C5: `get_session` liveness, sliding refresh, lazy deletion -/

/-- Branch equation for `get_session` when the record is present. -/
theorem get_session_some {δ : Type} (ttl now : Int) {sid : String}
    {db : Store (SessionRecord δ)} {sd : SessionRecord δ}
    (h : Store.get? db (sessionKey sid) = some sd) :
    SessionStore.get_session ttl now sid db =
      if now - sd.last_accessed > ttl then
        (none, Store.del db (sessionKey sid))
      else
        (some { sd with last_accessed := now },
          Store.put db (sessionKey sid) { sd with last_accessed := now }) := by
  rw [SessionStore.get_session, h]
  rfl

/-- C5: `get_session` treats a stored session as live iff
`now - last_accessed ≤ ttl_seconds`.  On a live session it writes the
record back with `last_accessed = now` and returns the refreshed record,
so `last_accessed` never decreases across successful reads (the stored
timestamp being in the past, clock hypothesis `last_accessed ≤ now`); on
an expired session it deletes the record and returns absent; on an
absent session it returns absent. -/
theorem get_session_liveness {δ : Type} (ttl now : Int) (sid : String)
    (db : Store (SessionRecord δ)) :
    (Store.get? db (sessionKey sid) = none →
      SessionStore.get_session ttl now sid db = (none, db)) ∧
    (∀ sd : SessionRecord δ,
      Store.get? db (sessionKey sid) = some sd →
      (now - sd.last_accessed > ttl →
        SessionStore.get_session ttl now sid db =
          (none, Store.del db (sessionKey sid)) ∧
        Store.get? (SessionStore.get_session ttl now sid db).2
          (sessionKey sid) = none) ∧
      (now - sd.last_accessed ≤ ttl →
        SessionStore.get_session ttl now sid db =
          (some { sd with last_accessed := now },
            Store.put db (sessionKey sid)
              { sd with last_accessed := now }) ∧
        (sd.last_accessed ≤ now →
          ∀ r ∈ (SessionStore.get_session ttl now sid db).1,
            sd.last_accessed ≤ r.last_accessed))) := by
  constructor
  · intro h
    rw [SessionStore.get_session, h]
  · intro sd hsd
    constructor
    · intro hexp
      rw [get_session_some ttl now hsd, if_pos hexp]
      exact ⟨rfl, Store.get?_del_self db (sessionKey sid)⟩
    · intro hlive
      rw [get_session_some ttl now hsd, if_neg (not_lt.mpr hlive)]
      refine ⟨rfl, ?_⟩
      intro hclock r hr
      have hr' : ({ sd with last_accessed := now } : SessionRecord δ) =
          r := by
        simpa using hr
      rw [← hr']
      exact hclock

/-- Witness for `get_session_liveness` at a concrete input. -/
theorem get_session_liveness_witness :
    SessionStore.get_session 10 12 "s"
        [(sessionKey "s", (⟨"s", "u", 0, 5, []⟩ : SessionRecord Bool))] =
      (some ⟨"s", "u", 0, 12, []⟩,
        Store.put [(sessionKey "s",
            (⟨"s", "u", 0, 5, []⟩ : SessionRecord Bool))]
          (sessionKey "s") ⟨"s", "u", 0, 12, []⟩) :=
  (((get_session_liveness 10 12 "s"
      [(sessionKey "s", (⟨"s", "u", 0, 5, []⟩ : SessionRecord Bool))]).2
    ⟨"s", "u", 0, 5, []⟩ (by decide)).2 (by decide)).1

/-! ### C6: `update_session` merge semantics -/

/-- C6 counterexample: on an expired session, `update_session` returns
false, but the store does not stay unchanged: the expired record is
deleted by the embedded `get_session` call. -/
theorem update_session_expired_mutates :
    SessionStore.update_session 10 100 "s" ([] : List (String × Bool))
        [(sessionKey "s", ⟨"s", "u", 0, 0, []⟩)] =
      (false, []) ∧
    [(sessionKey "s", (⟨"s", "u", 0, 0, []⟩ : SessionRecord Bool))] ≠
      ([] : Store (SessionRecord Bool)) := by
  constructor
  · decide
  · decide

/-- C6 (amended): `update_session` on a nonexistent session returns
false and leaves the store unchanged; on an expired session it returns
false but the expired record is deleted (a mutation performed by the
embedded `get_session`), so the state is not unchanged; on a live
session it writes the record back with `partial_data` merged key-wise
into `data` (listed keys overwritten, unlisted existing keys untouched)
and `last_accessed = now`, and returns true. -/
theorem update_session_spec {δ : Type} (ttl now : Int) (sid : String)
    (u : List (String × δ)) (db : Store (SessionRecord δ)) :
    (Store.get? db (sessionKey sid) = none →
      SessionStore.update_session ttl now sid u db = (false, db)) ∧
    (∀ sd : SessionRecord δ,
      Store.get? db (sessionKey sid) = some sd →
      (now - sd.last_accessed > ttl →
        SessionStore.update_session ttl now sid u db =
          (false, Store.del db (sessionKey sid))) ∧
      (now - sd.last_accessed ≤ ttl →
        SessionStore.update_session ttl now sid u db =
          (true, Store.put db (sessionKey sid)
            { sd with
              data := SessionStore.dictUpdate sd.data u
              last_accessed := now }) ∧
        (∀ k w, SessionStore.lookup u k = some w →
          SessionStore.lookup
            (SessionStore.dictUpdate sd.data u) k = some w) ∧
        (∀ k, SessionStore.lookup u k = none →
          SessionStore.lookup (SessionStore.dictUpdate sd.data u) k =
            SessionStore.lookup sd.data k))) := by
  constructor
  · intro h
    rw [SessionStore.update_session, SessionStore.get_session, h]
  · intro sd hsd
    constructor
    · intro hexp
      rw [SessionStore.update_session, get_session_some ttl now hsd,
        if_pos hexp]
    · intro hlive
      refine ⟨?_, ?_, ?_⟩
      · rw [SessionStore.update_session, get_session_some ttl now hsd,
          if_neg (not_lt.mpr hlive)]
        show (true, Store.put
            (Store.put db (sessionKey sid) { sd with last_accessed := now })
            (sessionKey sid)
            { sd with
              data := SessionStore.dictUpdate sd.data u
              last_accessed := now }) = _
        rw [put_put_same]
      · intro k w h
        rw [lookup_dictUpdate, h]
      · intro k h
        rw [lookup_dictUpdate, h]

/-- Witness for `update_session_spec` at a concrete input. -/
theorem update_session_spec_witness :
    SessionStore.update_session 10 12 "s" [("a", true)]
        [(sessionKey "s",
          (⟨"s", "u", 0, 5, [("b", false)]⟩ : SessionRecord Bool))] =
      (true, [(sessionKey "s",
        (⟨"s", "u", 0, 12, [("b", false), ("a", true)]⟩ :
          SessionRecord Bool))]) := by
  have h := (((update_session_spec 10 12 "s" [("a", true)]
      [(sessionKey "s",
        (⟨"s", "u", 0, 5, [("b", false)]⟩ : SessionRecord Bool))]).2
    ⟨"s", "u", 0, 5, [("b", false)]⟩ (by decide)).2 (by decide)).1
  rw [h]
  decide

/-! ### C9: the statistics snapshots are pure observations -/

/-- C9: `CacheLayer.get_stats` and `SessionStore.get_stats` are pure
observations: whenever the cache snapshot is produced (its scan decodes),
the returned state is exactly the input state — store contents and all
four local counters — and no store mutation is issued; the session
snapshot likewise returns the store unchanged.  This holds for any
state, including states still holding expired-but-unswept entries, which
the prefix scans merely read. -/
theorem get_stats_pure {α δ : Type} (s : CacheState α)
    (db : Store (SessionRecord δ))
    (r : CacheLayer.CacheStats × CacheState α × List (Eff (CVal α)))
    (h : CacheLayer.get_stats s = some r) :
    r.2.1 = s ∧ r.2.2 = [] ∧ (SessionStore.get_stats db).2 = db := by
  simp only [CacheLayer.get_stats] at h
  cases hc : CacheLayer.countAndSize
      ((Store.scan s.db "meta:").takeWhile
        (fun e => strHasPfx "meta:" e.1)) with
  | none =>
    rw [hc] at h
    exact absurd h (by simp)
  | some t =>
    rw [hc] at h
    have ht := Option.some_inj.mp h
    rw [← ht]
    exact ⟨rfl, rfl, rfl⟩

/-- Witness for `get_stats_pure` at a concrete input. -/
theorem get_stats_pure_witness :
    ((⟨⟨0, 0, 0, 3, 4, 0, 0⟩, ⟨[], 0, 0, 3, 4⟩, []⟩ :
        CacheLayer.CacheStats × CacheState Bool ×
          List (Eff (CVal Bool))).2.1 =
      (⟨[], 0, 0, 3, 4⟩ : CacheState Bool)) ∧
    ((⟨⟨0, 0, 0, 3, 4, 0, 0⟩, ⟨[], 0, 0, 3, 4⟩, []⟩ :
        CacheLayer.CacheStats × CacheState Bool ×
          List (Eff (CVal Bool))).2.2 = []) ∧
    (SessionStore.get_stats
        [(sessionKey "s", (⟨"s", "u", 0, 0, []⟩ : SessionRecord Bool))]).2 =
      [(sessionKey "s", (⟨"s", "u", 0, 0, []⟩ : SessionRecord Bool))] :=
  get_stats_pure (⟨[], 0, 0, 3, 4⟩ : CacheState Bool)
    [(sessionKey "s", (⟨"s", "u", 0, 0, []⟩ : SessionRecord Bool))]
    ⟨⟨0, 0, 0, 3, 4, 0, 0⟩, ⟨[], 0, 0, 3, 4⟩, []⟩ rfl

/-! ### Executable well-formedness check for concrete stores -/

def WFb {β : Type} : Store β → Bool
  | [] => true
  | [_] => true
  | e :: f :: rest => keyLt e.1 f.1 && WFb (f :: rest)

theorem WF_of_WFb {β : Type} :
    ∀ {s : Store β}, WFb s = true → Store.WF s := by
  intro s
  induction s with
  | nil => intro _; exact List.Pairwise.nil
  | cons e rest ih =>
    cases rest with
    | nil =>
      intro _
      exact List.pairwise_singleton _ _
    | cons f rs =>
      intro h
      rw [WFb, Bool.and_eq_true] at h
      have hef : e.1 < f.1 := keyLt_iff.mp h.1
      have hrest : Store.WF (f :: rs) := ih h.2
      refine Store.WF_cons ?_ hrest
      intro x hx
      rcases List.mem_cons.mp hx with hx | hx
      · rw [hx]
        exact hef
      · exact hef.trans (hrest.head x hx)

/-! ### C10: the expired-session sweep deletes exactly the expired -/

/-- Deleting a collected list of session keys in one batch: a key is
gone iff it was collected, and every other binding is untouched. -/
theorem get?_foldl_del {β : Type} (ks : List String) (db : Store β)
    (j : Key) :
    Store.get? (ks.foldl (fun d sid => Store.del d (sessionKey sid)) db)
        j =
      if j ∈ ks.map sessionKey then none else Store.get? db j := by
  induction ks generalizing db with
  | nil => simp
  | cons a as ih =>
    rw [List.foldl_cons, ih]
    by_cases hj : j ∈ List.map sessionKey as
    · have hin : j ∈ List.map sessionKey (a :: as) := by
        rw [List.map_cons]
        exact List.mem_cons_of_mem _ hj
      rw [if_pos hj, if_pos hin]
    · rw [if_neg hj]
      by_cases hja : j = sessionKey a
      · have hin : j ∈ List.map sessionKey (a :: as) := by
          rw [List.map_cons, hja]
          exact List.mem_cons_self _ _
        rw [if_pos hin, hja, Store.get?_del_self]
      · have hnotin : j ∉ List.map sessionKey (a :: as) := by
          rw [List.map_cons]
          intro hin
          rcases List.mem_cons.mp hin with h | h
          · exact hja h
          · exact hj h
        rw [if_neg hnotin, Store.get?_del_ne db hja]

/-- C10: `cleanup_expired_sessions` deletes exactly the session records
with `now - last_accessed > ttl_seconds` (and returns their count);
every live record (`now - last_accessed ≤ ttl_seconds`) remains stored
unchanged — in particular the sweep does not refresh `last_accessed`.
Hypotheses: the store is well formed and each record sits under the key
derived from its own `session_id` (which is how the component writes
them). -/
theorem cleanup_expired_spec {δ : Type} (ttl now : Int)
    (db : Store (SessionRecord δ)) (hwf : Store.WF db)
    (hsid : ∀ e ∈ db, e.1 = sessionKey e.2.session_id) :
    (SessionStore.cleanup_expired_sessions ttl now db).1 =
      (db.filter (fun e => decide (now - e.2.last_accessed > ttl))).length ∧
    ∀ sid sd, Store.get? db (sessionKey sid) = some sd →
      (now - sd.last_accessed > ttl →
        Store.get? (SessionStore.cleanup_expired_sessions ttl now db).2
          (sessionKey sid) = none) ∧
      (now - sd.last_accessed ≤ ttl →
        Store.get? (SessionStore.cleanup_expired_sessions ttl now db).2
          (sessionKey sid) = some sd) := by
  have hpfx : ∀ e ∈ db, strHasPfx "session:" e.1 = true := by
    intro e he
    rw [hsid e he]
    exact sessionKey_pfx _
  have hscan : (Store.scan db "session:").takeWhile
      (fun e => strHasPfx "session:" e.1) = db := by
    rw [Store.scan_take_eq_filter hwf]
    exact List.filter_eq_self.mpr hpfx
  have heq : ∀ (E : List String) (d0 : Store (SessionRecord δ)),
      (if E.isEmpty then (E.length, d0)
       else (E.length,
         E.foldl (fun d sid => Store.del d (sessionKey sid)) d0)) =
      (E.length,
        E.foldl (fun d sid => Store.del d (sessionKey sid)) d0) := by
    intro E d0
    cases E with
    | nil => rfl
    | cons a as => rfl
  have hunfold : SessionStore.cleanup_expired_sessions ttl now db =
      (((((Store.scan db "session:").takeWhile
          (fun e => strHasPfx "session:" e.1)).filter
            (fun e => decide (now - e.2.last_accessed > ttl))).map
          (fun e => e.2.session_id)).length,
        ((((Store.scan db "session:").takeWhile
          (fun e => strHasPfx "session:" e.1)).filter
            (fun e => decide (now - e.2.last_accessed > ttl))).map
          (fun e => e.2.session_id)).foldl
          (fun d sid => Store.del d (sessionKey sid)) db) :=
    heq _ db
  rw [hscan] at hunfold
  constructor
  · rw [hunfold]
    exact List.length_map _ _
  · intro sid sd hsd
    have hmem : (sessionKey sid, sd) ∈ db := Store.mem_of_get?_eq_some hsd
    have hsid' : sd.session_id = sid := by
      have h := hsid (sessionKey sid, sd) hmem
      exact (sessionKey_inj h.symm)
    constructor
    · intro hexp
      rw [hunfold]
      rw [get?_foldl_del]
      rw [if_pos ?_]
      refine List.mem_map.mpr ⟨sd.session_id, ?_, by rw [hsid']⟩
      refine List.mem_map.mpr ⟨(sessionKey sid, sd), ?_, rfl⟩
      exact List.mem_filter.mpr ⟨hmem, by simpa using hexp⟩
    · intro hlive
      rw [hunfold]
      rw [get?_foldl_del]
      rw [if_neg ?_, hsd]
      intro hin
      obtain ⟨sid', hsid'', hkey⟩ := List.mem_map.mp hin
      obtain ⟨e, hef, hesid⟩ := List.mem_map.mp hsid''
      have hmemf := List.mem_filter.mp hef
      have hkey' : e.1 = sessionKey sid := by
        rw [hsid e hmemf.1, hesid, hkey]
      have hge : Store.get? db e.1 = some e.2 :=
        Store.get?_eq_some_of_mem hwf
          (by rw [show e = (e.1, e.2) from rfl] at hmemf ⊢; exact hmemf.1)
      rw [hkey', hsd] at hge
      have hesd : e.2 = sd := (Option.some_inj.mp hge).symm
      have hexp : now - e.2.last_accessed > ttl := by
        simpa using hmemf.2
      rw [hesd] at hexp
      exact absurd hexp (not_lt.mpr hlive)

/-- Witness for `cleanup_expired_spec` at a concrete input. -/
theorem cleanup_expired_spec_witness :
    (SessionStore.cleanup_expired_sessions 10 100
        [(sessionKey "a", (⟨"a", "u", 0, 0, []⟩ : SessionRecord Bool)),
         (sessionKey "b", ⟨"b", "u", 0, 95, []⟩)]).1 = 1 ∧
    Store.get? (SessionStore.cleanup_expired_sessions 10 100
        [(sessionKey "a", (⟨"a", "u", 0, 0, []⟩ : SessionRecord Bool)),
         (sessionKey "b", ⟨"b", "u", 0, 95, []⟩)]).2 (sessionKey "a") =
      none ∧
    Store.get? (SessionStore.cleanup_expired_sessions 10 100
        [(sessionKey "a", (⟨"a", "u", 0, 0, []⟩ : SessionRecord Bool)),
         (sessionKey "b", ⟨"b", "u", 0, 95, []⟩)]).2 (sessionKey "b") =
      some ⟨"b", "u", 0, 95, []⟩ := by
  have h := cleanup_expired_spec 10 100
      [(sessionKey "a", (⟨"a", "u", 0, 0, []⟩ : SessionRecord Bool)),
       (sessionKey "b", ⟨"b", "u", 0, 95, []⟩)]
      (WF_of_WFb (by decide)) (by decide)
  refine ⟨h.1.trans (by decide), ?_, ?_⟩
  · exact (h.2 "a" ⟨"a", "u", 0, 0, []⟩ (by decide)).1 (by decide)
  · exact (h.2 "b" ⟨"b", "u", 0, 95, []⟩ (by decide)).2 (by decide)

/-! ### Branch equations for `CacheLayer.get` -/

/-- Hit: value and unexpired metadata both present. -/
theorem cache_get_hit {α : Type} (dflt : Int) (vsize : α → Nat)
    (now : Int) (key : String) (s : CacheState α) {v : α} {m : MetaRec}
    (h1 : Store.get? s.db (cacheKey key) = some (CVal.val v))
    (h2 : Store.get? s.db (metaKey key) = some (CVal.meta m))
    (hexp : now < m.expires_at) :
    CacheLayer.get dflt vsize now key none none s =
      some (some v, { s with hits := s.hits + 1 }, []) := by
  rw [CacheLayer.get, h1, h2]
  simp only [asMeta, asVal]
  rw [if_pos hexp]

/-- Expired: value present, metadata present but `now ≥ expires_at`:
both records are deleted by two separate point deletes, the call is a
miss; no loader, so nothing is written back. -/
theorem cache_get_expired {α : Type} (dflt : Int) (vsize : α → Nat)
    (now : Int) (key : String) (s : CacheState α) {cv : CVal α}
    {m : MetaRec}
    (h1 : Store.get? s.db (cacheKey key) = some cv)
    (h2 : Store.get? s.db (metaKey key) = some (CVal.meta m))
    (hexp : now ≥ m.expires_at) :
    CacheLayer.get dflt vsize now key none none s =
      some (none,
        { s with
          db := Store.del (Store.del s.db (cacheKey key)) (metaKey key)
          misses := s.misses + 1 },
        [Eff.point (Op.del (cacheKey key)),
         Eff.point (Op.del (metaKey key))]) := by
  rw [CacheLayer.get, h1, h2]
  simp only [asMeta]
  rw [if_neg (not_lt.mpr hexp)]
  rfl

/-- Value record present but metadata record absent: same delete path. -/
theorem cache_get_meta_absent {α : Type} (dflt : Int) (vsize : α → Nat)
    (now : Int) (key : String) (s : CacheState α) {cv : CVal α}
    (h1 : Store.get? s.db (cacheKey key) = some cv)
    (h2 : Store.get? s.db (metaKey key) = none) :
    CacheLayer.get dflt vsize now key none none s =
      some (none,
        { s with
          db := Store.del (Store.del s.db (cacheKey key)) (metaKey key)
          misses := s.misses + 1 },
        [Eff.point (Op.del (cacheKey key)),
         Eff.point (Op.del (metaKey key))]) := by
  rw [CacheLayer.get, h1, h2]
  rfl

/-! ### C4: `get` decides hit/miss from the value record, not the
metadata record -/

/-- C4 counterexample: with an orphan metadata record and no value
record, `get` records a miss and leaves the metadata record in place —
it deletes nothing, contradicting the claimed delete-both behaviour. -/
theorem get_orphan_meta_kept :
    CacheLayer.get 5 (fun _ : Bool => 1) 0 "k" none none
        (⟨[(metaKey "k", CVal.meta ⟨"k", 0, 100, 100, 1⟩)],
          0, 0, 0, 0⟩ : CacheState Bool) =
      some (none,
        ⟨[(metaKey "k", CVal.meta ⟨"k", 0, 100, 100, 1⟩)],
          0, 0 + 1, 0, 0⟩, []) ∧
    Store.get? ((⟨[(metaKey "k", CVal.meta ⟨"k", 0, 100, 100, 1⟩)],
        0, 0 + 1, 0, 0⟩ : CacheState Bool)).db (metaKey "k") ≠ none := by
  constructor
  · decide
  · decide

/-- C4 (amended): `get` decides hit versus miss by reading the value
record `cache:key` first.  When the value record is absent — even with a
metadata record present — the call records a miss, performs no store
operation (so an orphan metadata record remains) and applies the loader
branch: no loader gives absent; a loader's value is written via `set`
and returned.  The delete-both path runs only when a value record is
present but the metadata is absent or expired. -/
theorem get_value_record_decides {α : Type} (dflt : Int)
    (vsize : α → Nat) (now : Int) (key : String) (ttl? : Option Int)
    (s : CacheState α)
    (hv : Store.get? s.db (cacheKey key) = none) :
    CacheLayer.get dflt vsize now key none ttl? s =
      some (none, { s with misses := s.misses + 1 }, []) ∧
    (∀ v : α, CacheLayer.get dflt vsize now key (some v) ttl? s =
      some (some v,
        (CacheLayer.set dflt vsize now key v ttl?
          { s with misses := s.misses + 1 }).1,
        (CacheLayer.set dflt vsize now key v ttl?
          { s with misses := s.misses + 1 }).2)) ∧
    ({ s with misses := s.misses + 1 } : CacheState α).db = s.db := by
  refine ⟨?_, ?_, rfl⟩
  · rw [CacheLayer.get, hv]
  · intro v
    rw [CacheLayer.get, hv]
    rfl

/-- Witness for `get_value_record_decides` at a concrete input. -/
theorem get_value_record_decides_witness :
    CacheLayer.get 5 (fun _ : Bool => 1) 0 "q" none none
        (⟨[(metaKey "q", CVal.meta ⟨"q", 0, 9, 9, 1⟩)],
          0, 0, 0, 0⟩ : CacheState Bool) =
      some (none,
        { (⟨[(metaKey "q", CVal.meta ⟨"q", 0, 9, 9, 1⟩)],
            0, 0, 0, 0⟩ : CacheState Bool) with misses := 0 + 1 }, []) ∧
    (∀ v : Bool, CacheLayer.get 5 (fun _ : Bool => 1) 0 "q" (some v)
        none
        (⟨[(metaKey "q", CVal.meta ⟨"q", 0, 9, 9, 1⟩)],
          0, 0, 0, 0⟩ : CacheState Bool) =
      some (some v,
        (CacheLayer.set 5 (fun _ : Bool => 1) 0 "q" v none
          { (⟨[(metaKey "q", CVal.meta ⟨"q", 0, 9, 9, 1⟩)],
              0, 0, 0, 0⟩ : CacheState Bool) with misses := 0 + 1 }).1,
        (CacheLayer.set 5 (fun _ : Bool => 1) 0 "q" v none
          { (⟨[(metaKey "q", CVal.meta ⟨"q", 0, 9, 9, 1⟩)],
              0, 0, 0, 0⟩ : CacheState Bool) with misses := 0 + 1 }).2)) ∧
    ({ (⟨[(metaKey "q", CVal.meta ⟨"q", 0, 9, 9, 1⟩)],
        0, 0, 0, 0⟩ : CacheState Bool) with misses := 0 + 1 }).db =
      [(metaKey "q", CVal.meta ⟨"q", 0, 9, 9, 1⟩)] :=
  get_value_record_decides 5 (fun _ : Bool => 1) 0 "q" none
    ⟨[(metaKey "q", CVal.meta ⟨"q", 0, 9, 9, 1⟩)], 0, 0, 0, 0⟩
    (by decide)

/-! ### C8: `get` with no loader on an absent or expired entry -/

/-- C8 counterexample: on an expired entry, `get` with no loader does
return absent, but it does write to the store: both records are deleted
(two point deletes), so the store does not stay unchanged. -/
theorem get_expired_deletes :
    CacheLayer.get 5 (fun _ : Bool => 1) 7 "k" none none
        (⟨[(cacheKey "k", CVal.val true),
           (metaKey "k", CVal.meta ⟨"k", 0, 5, 5, 1⟩)],
          0, 0, 0, 0⟩ : CacheState Bool) =
      some (none, ⟨[], 0, 0 + 1, 0, 0⟩,
        [Eff.point (Op.del (cacheKey "k")),
         Eff.point (Op.del (metaKey "k"))]) ∧
    ([(cacheKey "k", CVal.val true),
      (metaKey "k", CVal.meta (⟨"k", 0, 5, 5, 1⟩ : MetaRec))] :
        Store (CVal Bool)) ≠ [] := by
  constructor
  · decide
  · decide

/-- C8 (amended): `get` with no loader returns absent on an absent or
expired entry and never issues a put; when the value record is absent it
performs no store operation at all, but when a value record is present
with expired or absent metadata it deletes both records (two point
deletes) — a store mutation. -/
theorem get_no_loader_spec {α : Type} (dflt : Int) (vsize : α → Nat)
    (now : Int) (key : String) (s : CacheState α) :
    (Store.get? s.db (cacheKey key) = none →
      CacheLayer.get dflt vsize now key none none s =
        some (none, { s with misses := s.misses + 1 }, []) ∧
      ({ s with misses := s.misses + 1 } : CacheState α).db = s.db) ∧
    (∀ cv, Store.get? s.db (cacheKey key) = some cv →
      (∀ m, Store.get? s.db (metaKey key) = some (CVal.meta m) →
        now ≥ m.expires_at →
        CacheLayer.get dflt vsize now key none none s =
          some (none,
            { s with
              db := Store.del (Store.del s.db (cacheKey key))
                (metaKey key)
              misses := s.misses + 1 },
            [Eff.point (Op.del (cacheKey key)),
             Eff.point (Op.del (metaKey key))])) ∧
      (Store.get? s.db (metaKey key) = none →
        CacheLayer.get dflt vsize now key none none s =
          some (none,
            { s with
              db := Store.del (Store.del s.db (cacheKey key))
                (metaKey key)
              misses := s.misses + 1 },
            [Eff.point (Op.del (cacheKey key)),
             Eff.point (Op.del (metaKey key))]))) := by
  constructor
  · intro hv
    exact ⟨(get_value_record_decides dflt vsize now key none s hv).1, rfl⟩
  · intro cv hcv
    constructor
    · intro m hm hexp
      exact cache_get_expired dflt vsize now key s hcv hm hexp
    · intro hm
      exact cache_get_meta_absent dflt vsize now key s hcv hm

/-- Witness for `get_no_loader_spec` at a concrete input. -/
theorem get_no_loader_spec_witness :
    CacheLayer.get 5 (fun _ : Bool => 1) 9 "k" none none
        (⟨[(cacheKey "k", CVal.val true),
           (metaKey "k", CVal.meta ⟨"k", 0, 5, 5, 1⟩)],
          2, 3, 0, 0⟩ : CacheState Bool) =
      some (none, ⟨[], 2, 3 + 1, 0, 0⟩,
        [Eff.point (Op.del (cacheKey "k")),
         Eff.point (Op.del (metaKey "k"))]) := by
  have h := ((get_no_loader_spec 5 (fun _ : Bool => 1) 9 "k"
      ⟨[(cacheKey "k", CVal.val true),
        (metaKey "k", CVal.meta ⟨"k", 0, 5, 5, 1⟩)], 2, 3, 0, 0⟩).2
    (CVal.val true) (by decide)).1 ⟨"k", 0, 5, 5, 1⟩ (by decide) (by decide)
  rw [h]
  decide

/-! ### Helpers for the metadata scan of `clear_expired` -/

/-- The expiry test of the `clear_expired` scan loop, on a decoded
record: `current_time > expires_at` (strictly), false on a value
record. -/
def isExpiredMeta {α : Type} (now : Int) : CVal α → Bool
  | .meta m => decide (m.expires_at < now)
  | .val _ => false

/-- `metadata["key"]` of a decoded metadata record. -/
def metaKeyOf {α : Type} : CVal α → String
  | .meta m => m.key
  | .val _ => ""

theorem not_meta_pfx_cacheKey (k : String) :
    strHasPfx "meta:" (cacheKey k) = false := by
  have h : (cacheKey k).data = 'c' :: ("ache:".data ++ k.data) := by
    have h0 : (cacheKey k).data = "cache:".data ++ k.data :=
      String.data_append _ _
    rw [h0]
    rfl
  rw [strHasPfx, h]
  rfl

theorem not_cache_vals_expired {α : Type} (now : Int) (v : α) :
    isExpiredMeta now (CVal.val v) = false := rfl

/-- On a scan segment made of metadata records only, the collector
returns the keys of exactly the strictly-expired ones, in order. -/
theorem collectExpired_eq {α : Type} (now : Int) :
    ∀ l : List (Key × CVal α),
      (∀ e ∈ l, ∃ m, e.2 = CVal.meta m) →
      CacheLayer.collectExpired now l =
        some ((l.filter (fun e => isExpiredMeta now e.2)).map
          (fun e => metaKeyOf e.2)) := by
  intro l
  induction l with
  | nil => intro _; rfl
  | cons e rest ih =>
    intro hmeta
    obtain ⟨m, hm⟩ := hmeta e (List.mem_cons_self _ _)
    have hrest := ih (fun x hx => hmeta x (List.mem_cons_of_mem _ hx))
    rw [show e = (e.1, e.2) from rfl, hm]
    rw [CacheLayer.collectExpired, asMeta, hrest]
    show some (if now > m.expires_at then
        m.key :: (rest.filter (fun e => isExpiredMeta now e.2)).map
          (fun e => metaKeyOf e.2)
      else (rest.filter (fun e => isExpiredMeta now e.2)).map
          (fun e => metaKeyOf e.2)) =
      some ((((e.1, CVal.meta m) :: rest).filter
        (fun e => isExpiredMeta now e.2)).map (fun e => metaKeyOf e.2))
    rw [List.filter_cons]
    by_cases hexp : m.expires_at < now
    · rw [if_pos (show now > m.expires_at from hexp),
        if_pos (show isExpiredMeta now
            ((e.1, CVal.meta m) : Key × CVal α).2 = true from by
          simpa [isExpiredMeta] using hexp),
        List.map_cons]
      rfl
    · rw [if_neg (show ¬ now > m.expires_at from hexp),
        if_neg (show ¬ isExpiredMeta now
            ((e.1, CVal.meta m) : Key × CVal α).2 = true from by
          simpa [isExpiredMeta] using hexp)]

/-- Applying the deletion batch of `clear_expired`: a key is gone iff it
is the `cache:` or `meta:` key of a collected logical key; every other
binding is untouched. -/
theorem get?_applyDelPairs {α : Type} (E : List String)
    (db : Store (CVal α)) (j : Key) :
    Store.get? (applyOps db (E.flatMap
        (fun k => [Op.del (cacheKey k), Op.del (metaKey k)]))) j =
      if j ∈ E.flatMap (fun k => [cacheKey k, metaKey k]) then none
      else Store.get? db j := by
  induction E generalizing db with
  | nil => simp [applyOps]
  | cons a as ih =>
    rw [List.flatMap_cons, List.flatMap_cons]
    have happ : applyOps db
        ([Op.del (cacheKey a), Op.del (metaKey a)] ++ as.flatMap
          (fun k => [Op.del (cacheKey k), Op.del (metaKey k)])) =
        applyOps (Store.del (Store.del db (cacheKey a)) (metaKey a))
          (as.flatMap
            (fun k => [Op.del (cacheKey k), Op.del (metaKey k)])) := rfl
    rw [happ, ih]
    by_cases hj : j ∈ as.flatMap (fun k => [cacheKey k, metaKey k])
    · rw [if_pos hj, if_pos (by
        rw [List.mem_append]
        exact Or.inr hj)]
    · rw [if_neg hj]
      by_cases hjc : j = cacheKey a
      · have hin : j ∈ [cacheKey a, metaKey a] ++ as.flatMap
            (fun k => [cacheKey k, metaKey k]) := by
          rw [List.mem_append, hjc]
          exact Or.inl (List.mem_cons_self _ _)
        rw [if_pos hin, Store.get?_del_ne _ (by
          rw [hjc]
          exact cacheKey_ne_metaKey a a), hjc, Store.get?_del_self]
      · by_cases hjm : j = metaKey a
        · have hin : j ∈ [cacheKey a, metaKey a] ++ as.flatMap
              (fun k => [cacheKey k, metaKey k]) := by
            rw [List.mem_append, hjm]
            exact Or.inl (List.mem_cons_of_mem _ (List.mem_cons_self _ _))
          rw [if_pos hin, hjm, Store.get?_del_self]
        · have hnotin : j ∉ [cacheKey a, metaKey a] ++ as.flatMap
              (fun k => [cacheKey k, metaKey k]) := by
            rw [List.mem_append]
            rintro (h | h)
            · rcases List.mem_cons.mp h with h | h
              · exact hjc h
              · rcases List.mem_cons.mp h with h | h
                · exact hjm h
                · exact absurd h (List.not_mem_nil _)
            · exact hj h
          rw [if_neg hnotin, Store.get?_del_ne _ hjm,
            Store.get?_del_ne _ hjc]

/-- Branch equation for `clear_expired` once the scan has collected. -/
theorem clear_expired_eq {α : Type} (now : Int) (s : CacheState α)
    {E : List String}
    (hcoll : CacheLayer.collectExpired now
        ((Store.scan s.db "meta:").takeWhile
          (fun e => strHasPfx "meta:" e.1)) = some E) :
    CacheLayer.clear_expired now s =
      if E.isEmpty then some (E.length, s, [])
      else some (E.length,
        { s with
          db := applyOps s.db (E.flatMap
            (fun k => [Op.del (cacheKey k), Op.del (metaKey k)]))
          evictions := s.evictions + E.length },
        [Eff.batch (E.flatMap
          (fun k => [Op.del (cacheKey k), Op.del (metaKey k)]))]) := by
  simp only [CacheLayer.clear_expired]
  rw [hcoll]
  rfl

/-! ### C3: what the expired-entry sweep removes -/

/-- C3 counterexample: a cache entry whose `expires_at` equals the call
time is not removed: the sweep tests `current_time > expires_at`
strictly, so the boundary entry survives and the returned count is 0
where the claim demands 1 (and the claim's premise `expires_at ≤ now`
holds at this input). -/
theorem clear_expired_boundary_kept :
    CacheLayer.clear_expired 5
        (⟨[(cacheKey "k", CVal.val true),
           (metaKey "k", CVal.meta ⟨"k", 0, 5, 5, 1⟩)],
          0, 0, 0, 0⟩ : CacheState Bool) =
      some (0,
        ⟨[(cacheKey "k", CVal.val true),
          (metaKey "k", CVal.meta ⟨"k", 0, 5, 5, 1⟩)], 0, 0, 0, 0⟩,
        []) ∧
    ((5 : Int) ≤ 5) := by
  constructor
  · decide
  · decide

/-- A store-interaction list that is a single atomic batch or nothing. -/
def isAtomic {β : Type} : List (Eff β) → Bool
  | [] => true
  | [Eff.batch _] => true
  | _ => false

/-- C3 (amended): under the component's store invariants (sorted store;
every record is a value record under its `cache:` key or a metadata
record under the `meta:` key derived from its own `key` field), a
successful `clear_expired` removes exactly the entries whose
`expires_at` is strictly below `now` — an entry with `expires_at = now`
survives — deleting the `cache:`/`meta:` pairs through one atomic batch,
incrementing the eviction counter by the count removed and returning
that count; every metadata record with `now ≤ expires_at` stays, its
value record untouched, and such an entry with `now < expires_at` is
still retrievable by a subsequent `get`. -/
theorem clear_expired_spec {α : Type} (dflt now : Int)
    (vsize : α → Nat) (s : CacheState α) (hwf : Store.WF s.db)
    (hshape : ∀ e ∈ s.db,
      (∃ k v, e = (cacheKey k, CVal.val v)) ∨
      (∃ m, e = (metaKey m.key, CVal.meta m)))
    (n : Nat) (s' : CacheState α) (effs : List (Eff (CVal α)))
    (hres : CacheLayer.clear_expired now s = some (n, s', effs)) :
    n = (s.db.filter (fun e => isExpiredMeta now e.2)).length ∧
    s'.evictions = s.evictions + n ∧
    s'.hits = s.hits ∧ s'.misses = s.misses ∧ s'.writes = s.writes ∧
    isAtomic effs = true ∧
    ∀ k m, Store.get? s.db (metaKey k) = some (CVal.meta m) →
      (m.expires_at < now →
        Store.get? s'.db (metaKey k) = none ∧
        Store.get? s'.db (cacheKey k) = none) ∧
      (now ≤ m.expires_at →
        Store.get? s'.db (metaKey k) = some (CVal.meta m) ∧
        Store.get? s'.db (cacheKey k) = Store.get? s.db (cacheKey k) ∧
        ∀ v, Store.get? s.db (cacheKey k) = some (CVal.val v) →
          now < m.expires_at →
          CacheLayer.get dflt vsize now k none none s' =
            some (some v, { s' with hits := s'.hits + 1 }, [])) := by
  have hscan : (Store.scan s.db "meta:").takeWhile
      (fun e => strHasPfx "meta:" e.1) =
      s.db.filter (fun e => strHasPfx "meta:" e.1) :=
    Store.scan_take_eq_filter hwf _
  have hmetashape : ∀ e ∈ s.db.filter (fun e => strHasPfx "meta:" e.1),
      ∃ m, e.2 = CVal.meta m := by
    intro e he
    have hmem := List.mem_filter.mp he
    rcases hshape e hmem.1 with ⟨k, v, hkv⟩ | ⟨m, hm⟩
    · exfalso
      have h4 := hmem.2
      rw [hkv] at h4
      exact absurd h4 (by simp [not_meta_pfx_cacheKey])
    · exact ⟨m, by rw [hm]⟩
  obtain ⟨E, hEdef⟩ : ∃ E,
      ((s.db.filter (fun e => strHasPfx "meta:" e.1)).filter
        (fun e => isExpiredMeta now e.2)).map (fun e => metaKeyOf e.2) =
        E := ⟨_, rfl⟩
  have hcoll : CacheLayer.collectExpired now
      ((Store.scan s.db "meta:").takeWhile
        (fun e => strHasPfx "meta:" e.1)) = some E := by
    rw [hscan, collectExpired_eq now _ hmetashape, hEdef]
  have hEmem : ∀ k : String, k ∈ E ↔
      ∃ m : MetaRec, Store.get? s.db (metaKey k) = some (CVal.meta m) ∧
        m.expires_at < now := by
    intro k
    rw [← hEdef]
    constructor
    · intro hk
      obtain ⟨e, hef, hkey⟩ := List.mem_map.mp hk
      have h2 := List.mem_filter.mp hef
      have h3 := List.mem_filter.mp h2.1
      rcases hshape e h3.1 with ⟨k', v, hkv⟩ | ⟨m, hm⟩
      · exfalso
        have h4 := h3.2
        rw [hkv] at h4
        exact absurd h4 (by simp [not_meta_pfx_cacheKey])
      · refine ⟨m, ?_, ?_⟩
        · have hmemdb : (metaKey m.key, CVal.meta m) ∈ s.db := by
            rw [← hm]
            exact h3.1
          have hget := Store.get?_eq_some_of_mem hwf hmemdb
          have hkk : m.key = k := by
            rw [hm] at hkey
            exact hkey
          rw [hkk] at hget
          exact hget
        · have h5 := h2.2
          rw [hm] at h5
          simpa [isExpiredMeta] using h5
    · rintro ⟨m, hget, hexp⟩
      have hmemdb : (metaKey k, CVal.meta m) ∈ s.db :=
        Store.mem_of_get?_eq_some hget
      have hkk : m.key = k := by
        rcases hshape _ hmemdb with ⟨k', v, hkv⟩ | ⟨m', hm'⟩
        · exact absurd (congrArg Prod.snd hkv) (by simp)
        · have h1 := congrArg Prod.snd hm'
          have h2 := congrArg Prod.fst hm'
          have hm'' : m = m' := by simpa using h1
          rw [← hm''] at h2
          exact (metaKey_inj h2).symm
      refine List.mem_map.mpr ⟨(metaKey k, CVal.meta m), ?_, ?_⟩
      · refine List.mem_filter.mpr ⟨?_, ?_⟩
        · refine List.mem_filter.mpr ⟨hmemdb, ?_⟩
          show strHasPfx "meta:" (metaKey k) = true
          exact metaKey_pfx k
        · show isExpiredMeta now (CVal.meta m) = true
          simpa [isExpiredMeta] using hexp
      · show metaKeyOf (CVal.meta m) = k
        rw [show metaKeyOf (CVal.meta m) = m.key from rfl, hkk]
  have hfilters : (s.db.filter (fun e => strHasPfx "meta:" e.1)).filter
      (fun e => isExpiredMeta now e.2) =
      s.db.filter (fun e => isExpiredMeta now e.2) := by
    rw [List.filter_filter]
    refine List.filter_congr ?_
    intro e he
    rcases hshape e he with ⟨k, v, hkv⟩ | ⟨m, hm⟩
    · rw [hkv]
      rfl
    · rw [hm]
      show (isExpiredMeta now (CVal.meta m) &&
        strHasPfx "meta:" (metaKey m.key)) = isExpiredMeta now (CVal.meta m)
      rw [metaKey_pfx, Bool.and_true]
  have hlen : E.length =
      (s.db.filter (fun e => isExpiredMeta now e.2)).length := by
    rw [← hEdef, List.length_map, hfilters]
  rw [clear_expired_eq now s hcoll] at hres
  by_cases hE0 : E.isEmpty
  · have hEnil : E = [] := by
      cases E with
      | nil => rfl
      | cons a as => exact absurd hE0 (by simp)
    rw [if_pos hE0] at hres
    have h := Option.some_inj.mp hres
    have hn : E.length = n := congrArg Prod.fst h
    have hs' : s = s' := congrArg (fun p => p.2.1) h
    have heffs : ([] : List (Eff (CVal α))) = effs :=
      congrArg (fun p => p.2.2) h
    subst hn
    subst hs'
    subst heffs
    refine ⟨hlen, ?_, rfl, rfl, rfl, rfl, ?_⟩
    · rw [hEnil]
      rfl
    · intro k m hget
      constructor
      · intro hexp
        exfalso
        have hkE : k ∈ E := (hEmem k).mpr ⟨m, hget, hexp⟩
        rw [hEnil] at hkE
        exact absurd hkE (List.not_mem_nil _)
      · intro hlive
        refine ⟨hget, rfl, ?_⟩
        intro v hv hstrict
        exact cache_get_hit dflt vsize now k s hv hget hstrict
  · rw [if_neg hE0] at hres
    have h := Option.some_inj.mp hres
    have hn : E.length = n := congrArg Prod.fst h
    have hs' : ({ s with
        db := applyOps s.db (E.flatMap
          (fun k => [Op.del (cacheKey k), Op.del (metaKey k)]))
        evictions := s.evictions + E.length } : CacheState α) = s' :=
      congrArg (fun p => p.2.1) h
    have heffs : ([Eff.batch (E.flatMap
        (fun k => [Op.del (cacheKey k), Op.del (metaKey k)]))] :
        List (Eff (CVal α))) = effs :=
      congrArg (fun p => p.2.2) h
    subst hn
    subst hs'
    subst heffs
    refine ⟨hlen, rfl, rfl, rfl, rfl, rfl, ?_⟩
    intro k m hget
    constructor
    · intro hexp
      have hkE : k ∈ E := (hEmem k).mpr ⟨m, hget, hexp⟩
      constructor
      · show Store.get? (applyOps s.db (E.flatMap
          (fun k => [Op.del (cacheKey k), Op.del (metaKey k)])))
          (metaKey k) = none
        rw [get?_applyDelPairs, if_pos (List.mem_flatMap.mpr
          ⟨k, hkE,
            List.mem_cons_of_mem _ (List.mem_cons_self _ _)⟩)]
      · show Store.get? (applyOps s.db (E.flatMap
          (fun k => [Op.del (cacheKey k), Op.del (metaKey k)])))
          (cacheKey k) = none
        rw [get?_applyDelPairs, if_pos (List.mem_flatMap.mpr
          ⟨k, hkE, List.mem_cons_self _ _⟩)]
    · intro hlive
      have hknotE : k ∉ E := by
        intro hkE
        obtain ⟨m', hget', hexp'⟩ := (hEmem k).mp hkE
        rw [hget] at hget'
        have hm' : m = m' := by
          have h1 := Option.some_inj.mp hget'
          simpa using h1
        rw [← hm'] at hexp'
        exact absurd hexp' (not_lt.mpr hlive)
      have hmknot : metaKey k ∉ E.flatMap
          (fun k => [cacheKey k, metaKey k]) := by
        intro hin
        obtain ⟨k', hk', hjin⟩ := List.mem_flatMap.mp hin
        rcases List.mem_cons.mp hjin with h | h
        · exact absurd h.symm (cacheKey_ne_metaKey k' k)
        · rcases List.mem_cons.mp h with h | h
          · have hkk : k' = k := metaKey_inj h.symm
            rw [hkk] at hk'
            exact hknotE hk'
          · exact absurd h (List.not_mem_nil _)
      have hcknot : cacheKey k ∉ E.flatMap
          (fun k => [cacheKey k, metaKey k]) := by
        intro hin
        obtain ⟨k', hk', hjin⟩ := List.mem_flatMap.mp hin
        rcases List.mem_cons.mp hjin with h | h
        · have hkk : k' = k := cacheKey_inj h.symm
          rw [hkk] at hk'
          exact hknotE hk'
        · rcases List.mem_cons.mp h with h | h
          · exact absurd h (cacheKey_ne_metaKey k k')
          · exact absurd h (List.not_mem_nil _)
      have hmk : Store.get? (applyOps s.db (E.flatMap
          (fun k => [Op.del (cacheKey k), Op.del (metaKey k)])))
          (metaKey k) = some (CVal.meta m) := by
        rw [get?_applyDelPairs, if_neg hmknot]
        exact hget
      have hck : Store.get? (applyOps s.db (E.flatMap
          (fun k => [Op.del (cacheKey k), Op.del (metaKey k)])))
          (cacheKey k) = Store.get? s.db (cacheKey k) := by
        rw [get?_applyDelPairs, if_neg hcknot]
      refine ⟨hmk, hck, ?_⟩
      intro v hv hstrict
      refine cache_get_hit dflt vsize now k _ ?_ ?_ hstrict
      · show Store.get? (applyOps s.db (E.flatMap
          (fun k => [Op.del (cacheKey k), Op.del (metaKey k)])))
          (cacheKey k) = some (CVal.val v)
        rw [hck]
        exact hv
      · exact hmk

/-- Witness for `clear_expired_spec` at a concrete input. -/
theorem clear_expired_spec_witness :
    (1 = ((⟨[(cacheKey "a", CVal.val true), (cacheKey "b", CVal.val false),
        (metaKey "a", CVal.meta ⟨"a", 0, 5, 5, 1⟩),
        (metaKey "b", CVal.meta ⟨"b", 0, 9, 9, 1⟩)],
        0, 0, 0, 0⟩ : CacheState Bool).db.filter
        (fun e => isExpiredMeta 7 e.2)).length) ∧
    isAtomic ([Eff.batch [Op.del (cacheKey "a"), Op.del (metaKey "a")]] :
      List (Eff (CVal Bool))) = true ∧
    Store.get? (⟨[(cacheKey "b", CVal.val false),
        (metaKey "b", CVal.meta ⟨"b", 0, 9, 9, 1⟩)],
        0, 0, 0, 1⟩ : CacheState Bool).db (metaKey "a") = none ∧
    Store.get? (⟨[(cacheKey "b", CVal.val false),
        (metaKey "b", CVal.meta ⟨"b", 0, 9, 9, 1⟩)],
        0, 0, 0, 1⟩ : CacheState Bool).db (metaKey "b") =
      some (CVal.meta ⟨"b", 0, 9, 9, 1⟩) ∧
    CacheLayer.get 5 (fun _ : Bool => 1) 7 "b" none none
        (⟨[(cacheKey "b", CVal.val false),
          (metaKey "b", CVal.meta ⟨"b", 0, 9, 9, 1⟩)],
          0, 0, 0, 1⟩ : CacheState Bool) =
      some (some false,
        (⟨[(cacheKey "b", CVal.val false),
          (metaKey "b", CVal.meta ⟨"b", 0, 9, 9, 1⟩)],
          0 + 1, 0, 0, 1⟩ : CacheState Bool), []) := by
  have h := clear_expired_spec 5 7 (fun _ : Bool => 1)
      (⟨[(cacheKey "a", CVal.val true), (cacheKey "b", CVal.val false),
        (metaKey "a", CVal.meta ⟨"a", 0, 5, 5, 1⟩),
        (metaKey "b", CVal.meta ⟨"b", 0, 9, 9, 1⟩)],
        0, 0, 0, 0⟩ : CacheState Bool)
      (WF_of_WFb (by decide))
      (by
        intro e he
        rcases List.mem_cons.mp he with h1 | he
        · exact Or.inl ⟨"a", true, h1⟩
        rcases List.mem_cons.mp he with h1 | he
        · exact Or.inl ⟨"b", false, h1⟩
        rcases List.mem_cons.mp he with h1 | he
        · exact Or.inr ⟨⟨"a", 0, 5, 5, 1⟩, h1⟩
        rcases List.mem_cons.mp he with h1 | he
        · exact Or.inr ⟨⟨"b", 0, 9, 9, 1⟩, h1⟩
        · exact absurd he (List.not_mem_nil _))
      1
      (⟨[(cacheKey "b", CVal.val false),
        (metaKey "b", CVal.meta ⟨"b", 0, 9, 9, 1⟩)],
        0, 0, 0, 1⟩ : CacheState Bool)
      [Eff.batch [Op.del (cacheKey "a"), Op.del (metaKey "a")]]
      (by decide)
  refine ⟨h.1, h.2.2.2.2.2.1, ?_, ?_, ?_⟩
  · exact ((h.2.2.2.2.2.2 "a" ⟨"a", 0, 5, 5, 1⟩ (by decide)).1
      (by decide)).1
  · exact ((h.2.2.2.2.2.2 "b" ⟨"b", 0, 9, 9, 1⟩ (by decide)).2
      (by decide)).1
  · exact ((h.2.2.2.2.2.2 "b" ⟨"b", 0, 9, 9, 1⟩ (by decide)).2
      (by decide)).2.2 false (by decide) (by decide)

/-! ### C2: the paired-record invariant and batch atomicity -/

/-- The paired-record invariant: the value record and the metadata
record of a logical key exist together or not at all. -/
def Paired {α : Type} (db : Store (CVal α)) : Prop :=
  ∀ k : String,
    (Store.get? db (cacheKey k)).isSome =
      (Store.get? db (metaKey k)).isSome

theorem metaKey_mem_delPairs {E : List String} {k : String} :
    metaKey k ∈ E.flatMap (fun k => [cacheKey k, metaKey k]) ↔
      k ∈ E := by
  constructor
  · intro hin
    obtain ⟨k', hk', hjin⟩ := List.mem_flatMap.mp hin
    rcases List.mem_cons.mp hjin with h | h
    · exact absurd h.symm (cacheKey_ne_metaKey k' k)
    · rcases List.mem_cons.mp h with h | h
      · exact (metaKey_inj h) ▸ hk'
      · exact absurd h (List.not_mem_nil _)
  · intro hk
    exact List.mem_flatMap.mpr
      ⟨k, hk, List.mem_cons_of_mem _ (List.mem_cons_self _ _)⟩

theorem cacheKey_mem_delPairs {E : List String} {k : String} :
    cacheKey k ∈ E.flatMap (fun k => [cacheKey k, metaKey k]) ↔
      k ∈ E := by
  constructor
  · intro hin
    obtain ⟨k', hk', hjin⟩ := List.mem_flatMap.mp hin
    rcases List.mem_cons.mp hjin with h | h
    · exact (cacheKey_inj h) ▸ hk'
    · rcases List.mem_cons.mp h with h | h
      · exact absurd h (cacheKey_ne_metaKey k k')
      · exact absurd h (List.not_mem_nil _)
  · intro hk
    exact List.mem_flatMap.mpr ⟨k, hk, List.mem_cons_self _ _⟩

/-- Applying put operations never removes a binding. -/
theorem isSome_applyOps_puts {β : Type} :
    ∀ (ops : List (Op β)) (db : Store β) (j : Key),
      (∀ o ∈ ops, ∃ k v, o = Op.put k v) →
      (Store.get? db j).isSome = true →
      (Store.get? (applyOps db ops) j).isSome = true := by
  intro ops
  induction ops with
  | nil =>
    intro db j _ h
    exact h
  | cons o rest ih =>
    intro db j hops h
    obtain ⟨k, v, ho⟩ := hops o (List.mem_cons_self _ _)
    subst ho
    show (Store.get? (applyOps (Store.put db k v) rest) j).isSome = true
    refine ih _ j (fun o ho => hops o (List.mem_cons_of_mem _ ho)) ?_
    by_cases hj : j = k
    · rw [hj, Store.get?_put_self]
      rfl
    · rw [Store.get?_put_ne _ _ hj]
      exact h

/-- Applying put operations that all target keys different from `j`
leaves `j`'s binding unchanged. -/
theorem get?_applyOps_other {β : Type} :
    ∀ (ops : List (Op β)) (db : Store β) (j : Key),
      (∀ o ∈ ops, ∃ k v, o = Op.put k v ∧ j ≠ k) →
      Store.get? (applyOps db ops) j = Store.get? db j := by
  intro ops
  induction ops with
  | nil =>
    intro db j _
    rfl
  | cons o rest ih =>
    intro db j hops
    obtain ⟨k, v, ho, hj⟩ := hops o (List.mem_cons_self _ _)
    subst ho
    show Store.get? (applyOps (Store.put db k v) rest) j = Store.get? db j
    rw [ih _ j (fun o ho => hops o (List.mem_cons_of_mem _ ho)),
      Store.get?_put_ne _ _ hj]

/-- After the warm-cache batch, every key of the mapping has both of its
records present. -/
theorem warm_pair_isSome {α : Type} (dflt : Int) (vsize : α → Nat)
    (now : Int) (ttl? : Option Int) :
    ∀ (entries : List (String × α)) (db : Store (CVal α)) (k : String),
      k ∈ entries.map Prod.fst →
      (Store.get? (applyOps db (entries.flatMap (fun e =>
          [Op.put (cacheKey e.1) (CVal.val e.2),
           Op.put (metaKey e.1) (CVal.meta
             { key := e.1, created_at := now,
               expires_at := now + resolveTtl ttl? dflt,
               ttl := resolveTtl ttl? dflt,
               size_bytes := vsize e.2 })]))) (cacheKey k)).isSome =
        true ∧
      (Store.get? (applyOps db (entries.flatMap (fun e =>
          [Op.put (cacheKey e.1) (CVal.val e.2),
           Op.put (metaKey e.1) (CVal.meta
             { key := e.1, created_at := now,
               expires_at := now + resolveTtl ttl? dflt,
               ttl := resolveTtl ttl? dflt,
               size_bytes := vsize e.2 })]))) (metaKey k)).isSome =
        true := by
  intro entries
  induction entries with
  | nil =>
    intro db k h
    exact absurd h (by simp)
  | cons x rest ih =>
    intro db k hk
    have hstep : ∀ j, Store.get? (applyOps db ((x :: rest).flatMap
        (fun e =>
          [Op.put (cacheKey e.1) (CVal.val e.2),
           Op.put (metaKey e.1) (CVal.meta
             { key := e.1, created_at := now,
               expires_at := now + resolveTtl ttl? dflt,
               ttl := resolveTtl ttl? dflt,
               size_bytes := vsize e.2 })]))) j =
        Store.get? (applyOps
          (Store.put (Store.put db (cacheKey x.1) (CVal.val x.2))
            (metaKey x.1) (CVal.meta
              { key := x.1, created_at := now,
                expires_at := now + resolveTtl ttl? dflt,
                ttl := resolveTtl ttl? dflt,
                size_bytes := vsize x.2 }))
          (rest.flatMap (fun e =>
            [Op.put (cacheKey e.1) (CVal.val e.2),
             Op.put (metaKey e.1) (CVal.meta
               { key := e.1, created_at := now,
                 expires_at := now + resolveTtl ttl? dflt,
                 ttl := resolveTtl ttl? dflt,
                 size_bytes := vsize e.2 })]))) j := fun _ => rfl
    rw [List.map_cons] at hk
    rcases List.mem_cons.mp hk with hx | hrest
    · constructor
      · rw [hstep]
        refine isSome_applyOps_puts _ _ _ ?_ ?_
        · intro o ho
          obtain ⟨e, _, hoe⟩ := List.mem_flatMap.mp ho
          rcases List.mem_cons.mp hoe with h | h
          · exact ⟨_, _, h⟩
          · rcases List.mem_cons.mp h with h | h
            · exact ⟨_, _, h⟩
            · exact absurd h (List.not_mem_nil _)
        · rw [hx, Store.get?_put_ne _ _ (cacheKey_ne_metaKey x.1 x.1),
            Store.get?_put_self]
          rfl
      · rw [hstep]
        refine isSome_applyOps_puts _ _ _ ?_ ?_
        · intro o ho
          obtain ⟨e, _, hoe⟩ := List.mem_flatMap.mp ho
          rcases List.mem_cons.mp hoe with h | h
          · exact ⟨_, _, h⟩
          · rcases List.mem_cons.mp h with h | h
            · exact ⟨_, _, h⟩
            · exact absurd h (List.not_mem_nil _)
        · rw [hx, Store.get?_put_self]
          rfl
    · constructor
      · rw [hstep]
        exact (ih _ k hrest).1
      · rw [hstep]
        exact (ih _ k hrest).2

/-- Value-record-absent branch of `get` with no loader. -/
theorem cache_get_value_absent {α : Type} (dflt : Int) (vsize : α → Nat)
    (now : Int) (key : String) (s : CacheState α)
    (hv : Store.get? s.db (cacheKey key) = none) :
    CacheLayer.get dflt vsize now key none none s =
      some (none, { s with misses := s.misses + 1 }, []) := by
  rw [CacheLayer.get, hv]

/-- C2 counterexample: the lazy-expiry path of `get` deletes the two
records of the expired entry with two separate point deletes, not
through one atomic batch. -/
theorem get_lazy_expiry_not_atomic :
    (CacheLayer.get 5 (fun _ : Bool => 1) 7 "k" none none
        (⟨[(cacheKey "k", CVal.val true),
           (metaKey "k", CVal.meta ⟨"k", 0, 5, 5, 1⟩)],
          0, 0, 0, 0⟩ : CacheState Bool)).map (fun r => r.2.2) =
      some [Eff.point (Op.del (cacheKey "k")),
        Eff.point (Op.del (metaKey "k"))] ∧
    isAtomic ([Eff.point (Op.del (cacheKey "k")),
      Eff.point (Op.del (metaKey "k"))] : List (Eff (CVal Bool))) =
      false := by
  constructor
  · decide
  · decide

/-- C2 (amended): every operation preserves the paired-record invariant
(the `cache:K` and `meta:K` records exist together or not at all), and
`set`, `delete` and `warm_cache` perform their mutations through one
atomic batch covering both records of each touched key — `warm_cache`
covering the entire mapping in a single batch — as does a successful
`clear_expired`; but the lazy-expiry path of `get` is the exception: it
issues its two deletes as separate point operations, not as a batch
(`get` otherwise performs no mutation on these paths). -/
theorem atomic_pairing {α : Type} (dflt : Int) (vsize : α → Nat)
    (now : Int) (key : String) (value : α) (ttl? : Option Int)
    (entries : List (String × α)) (s : CacheState α)
    (hpair : Paired s.db) (hwf : Store.WF s.db)
    (hshape : ∀ e ∈ s.db,
      (∃ k v, e = (cacheKey k, CVal.val v)) ∨
      (∃ m, e = (metaKey m.key, CVal.meta m))) :
    ((CacheLayer.set dflt vsize now key value ttl? s).2 =
      [Eff.batch [Op.put (cacheKey key) (CVal.val value),
        Op.put (metaKey key) (CVal.meta
          { key := key, created_at := now,
            expires_at := now + resolveTtl ttl? dflt,
            ttl := resolveTtl ttl? dflt,
            size_bytes := vsize value })]] ∧
      Paired (CacheLayer.set dflt vsize now key value ttl? s).1.db) ∧
    ((CacheLayer.delete key s).2 =
      [Eff.batch [Op.del (cacheKey key), Op.del (metaKey key)]] ∧
      Paired (CacheLayer.delete key s).1.db) ∧
    ((CacheLayer.warm_cache dflt vsize now entries ttl? s).2.2 =
      [Eff.batch (entries.flatMap (fun e =>
        [Op.put (cacheKey e.1) (CVal.val e.2),
         Op.put (metaKey e.1) (CVal.meta
           { key := e.1, created_at := now,
             expires_at := now + resolveTtl ttl? dflt,
             ttl := resolveTtl ttl? dflt,
             size_bytes := vsize e.2 })]))] ∧
      Paired (CacheLayer.warm_cache dflt vsize now entries ttl? s).2.1.db) ∧
    (∀ n s' effs, CacheLayer.clear_expired now s = some (n, s', effs) →
      isAtomic effs = true ∧ Paired s'.db) ∧
    (∀ r s' effs,
      CacheLayer.get dflt vsize now key none none s =
        some (r, s', effs) →
      Paired s'.db ∧
      (effs = [] ∨ effs = [Eff.point (Op.del (cacheKey key)),
        Eff.point (Op.del (metaKey key))])) := by
  refine ⟨⟨rfl, ?_⟩, ⟨rfl, ?_⟩, ⟨rfl, ?_⟩, ?_, ?_⟩
  · -- set preserves pairing
    intro k
    show (Store.get? (Store.put (Store.put s.db (cacheKey key)
        (CVal.val value)) (metaKey key) (CVal.meta
          { key := key, created_at := now,
            expires_at := now + resolveTtl ttl? dflt,
            ttl := resolveTtl ttl? dflt,
            size_bytes := vsize value })) (cacheKey k)).isSome =
      (Store.get? (Store.put (Store.put s.db (cacheKey key)
        (CVal.val value)) (metaKey key) (CVal.meta
          { key := key, created_at := now,
            expires_at := now + resolveTtl ttl? dflt,
            ttl := resolveTtl ttl? dflt,
            size_bytes := vsize value })) (metaKey k)).isSome
    by_cases hk : k = key
    · rw [hk, Store.get?_put_ne _ _ (cacheKey_ne_metaKey key key),
        Store.get?_put_self, Store.get?_put_self]
      rfl
    · rw [Store.get?_put_ne _ _
          (fun h => cacheKey_ne_metaKey k key h),
        Store.get?_put_ne _ _ (fun h => hk (cacheKey_inj h)),
        Store.get?_put_ne _ _ (fun h => hk (metaKey_inj h)),
        Store.get?_put_ne _ _
          (fun h => cacheKey_ne_metaKey key k h.symm)]
      exact hpair k
  · -- delete preserves pairing
    intro k
    show (Store.get? (Store.del (Store.del s.db (cacheKey key))
        (metaKey key)) (cacheKey k)).isSome =
      (Store.get? (Store.del (Store.del s.db (cacheKey key))
        (metaKey key)) (metaKey k)).isSome
    by_cases hk : k = key
    · rw [hk, Store.get?_del_ne _ (fun h => cacheKey_ne_metaKey key key h),
        Store.get?_del_self, Store.get?_del_self]
    · rw [Store.get?_del_ne _ (fun h => cacheKey_ne_metaKey k key h),
        Store.get?_del_ne _ (fun h => hk (cacheKey_inj h)),
        Store.get?_del_ne _ (fun h => hk (metaKey_inj h)),
        Store.get?_del_ne _
          (fun h => cacheKey_ne_metaKey key k h.symm)]
      exact hpair k
  · -- warm_cache preserves pairing
    intro k
    show (Store.get? (applyOps s.db (entries.flatMap (fun e =>
        [Op.put (cacheKey e.1) (CVal.val e.2),
         Op.put (metaKey e.1) (CVal.meta
           { key := e.1, created_at := now,
             expires_at := now + resolveTtl ttl? dflt,
             ttl := resolveTtl ttl? dflt,
             size_bytes := vsize e.2 })]))) (cacheKey k)).isSome =
      (Store.get? (applyOps s.db (entries.flatMap (fun e =>
        [Op.put (cacheKey e.1) (CVal.val e.2),
         Op.put (metaKey e.1) (CVal.meta
           { key := e.1, created_at := now,
             expires_at := now + resolveTtl ttl? dflt,
             ttl := resolveTtl ttl? dflt,
             size_bytes := vsize e.2 })]))) (metaKey k)).isSome
    by_cases hk : k ∈ entries.map Prod.fst
    · have h := warm_pair_isSome dflt vsize now ttl? entries s.db k hk
      rw [h.1, h.2]
    · have hothers : ∀ (j : Key), (∀ e : String × α, e ∈ entries →
          j ≠ cacheKey e.1 ∧ j ≠ metaKey e.1) →
          Store.get? (applyOps s.db (entries.flatMap (fun e =>
            [Op.put (cacheKey e.1) (CVal.val e.2),
             Op.put (metaKey e.1) (CVal.meta
               { key := e.1, created_at := now,
                 expires_at := now + resolveTtl ttl? dflt,
                 ttl := resolveTtl ttl? dflt,
                 size_bytes := vsize e.2 })]))) j =
            Store.get? s.db j := by
        intro j hj
        refine get?_applyOps_other _ _ _ ?_
        intro o ho
        obtain ⟨e, he, hoe⟩ := List.mem_flatMap.mp ho
        rcases List.mem_cons.mp hoe with h | h
        · exact ⟨_, _, h, (hj e he).1⟩
        · rcases List.mem_cons.mp h with h | h
          · exact ⟨_, _, h, (hj e he).2⟩
          · exact absurd h (List.not_mem_nil _)
      have hne : ∀ e : String × α, e ∈ entries → e.1 ≠ k := by
        intro e he hek
        exact hk (List.mem_map.mpr ⟨e, he, hek⟩)
      rw [hothers (cacheKey k) (fun e he =>
          ⟨fun h => (hne e he) (cacheKey_inj h).symm,
           fun h => cacheKey_ne_metaKey k e.1 h⟩),
        hothers (metaKey k) (fun e he =>
          ⟨fun h => cacheKey_ne_metaKey e.1 k h.symm,
           fun h => (hne e he) (metaKey_inj h).symm⟩)]
      exact hpair k
  · -- clear_expired: atomic and pairing-preserving
    intro n s' effs hres
    have hscan : (Store.scan s.db "meta:").takeWhile
        (fun e => strHasPfx "meta:" e.1) =
        s.db.filter (fun e => strHasPfx "meta:" e.1) :=
      Store.scan_take_eq_filter hwf _
    have hmetashape : ∀ e ∈ s.db.filter
        (fun e => strHasPfx "meta:" e.1), ∃ m, e.2 = CVal.meta m := by
      intro e he
      have hmem := List.mem_filter.mp he
      rcases hshape e hmem.1 with ⟨k, v, hkv⟩ | ⟨m, hm⟩
      · exfalso
        have h4 := hmem.2
        rw [hkv] at h4
        exact absurd h4 (by simp [not_meta_pfx_cacheKey])
      · exact ⟨m, by rw [hm]⟩
    obtain ⟨E, hEdef⟩ : ∃ E,
        ((s.db.filter (fun e => strHasPfx "meta:" e.1)).filter
          (fun e => isExpiredMeta now e.2)).map
            (fun e => metaKeyOf e.2) = E := ⟨_, rfl⟩
    have hcoll : CacheLayer.collectExpired now
        ((Store.scan s.db "meta:").takeWhile
          (fun e => strHasPfx "meta:" e.1)) = some E := by
      rw [hscan, collectExpired_eq now _ hmetashape, hEdef]
    rw [clear_expired_eq now s hcoll] at hres
    by_cases hE0 : E.isEmpty
    · rw [if_pos hE0] at hres
      have h := Option.some_inj.mp hres
      have hs' : s = s' := congrArg (fun p => p.2.1) h
      have heffs : ([] : List (Eff (CVal α))) = effs :=
        congrArg (fun p => p.2.2) h
      subst hs'
      subst heffs
      exact ⟨rfl, hpair⟩
    · rw [if_neg hE0] at hres
      have h := Option.some_inj.mp hres
      have hs' : ({ s with
          db := applyOps s.db (E.flatMap
            (fun k => [Op.del (cacheKey k), Op.del (metaKey k)]))
          evictions := s.evictions + E.length } : CacheState α) = s' :=
        congrArg (fun p => p.2.1) h
      have heffs : ([Eff.batch (E.flatMap
          (fun k => [Op.del (cacheKey k), Op.del (metaKey k)]))] :
          List (Eff (CVal α))) = effs :=
        congrArg (fun p => p.2.2) h
      subst hs'
      subst heffs
      refine ⟨rfl, ?_⟩
      intro k
      show (Store.get? (applyOps s.db (E.flatMap
          (fun k => [Op.del (cacheKey k), Op.del (metaKey k)])))
          (cacheKey k)).isSome =
        (Store.get? (applyOps s.db (E.flatMap
          (fun k => [Op.del (cacheKey k), Op.del (metaKey k)])))
          (metaKey k)).isSome
      rw [get?_applyDelPairs, get?_applyDelPairs]
      by_cases hkE : k ∈ E
      · rw [if_pos (cacheKey_mem_delPairs.mpr hkE),
          if_pos (metaKey_mem_delPairs.mpr hkE)]
      · rw [if_neg (fun h => hkE (cacheKey_mem_delPairs.mp h)),
          if_neg (fun h => hkE (metaKey_mem_delPairs.mp h))]
        exact hpair k
  · -- get with no loader: pairing preserved; lazy expiry is two point
    -- deletes
    intro r s' effs hres
    cases hcv : Store.get? s.db (cacheKey key) with
    | none =>
      rw [cache_get_value_absent dflt vsize now key s hcv] at hres
      have h := Option.some_inj.mp hres
      have hs' : ({ s with misses := s.misses + 1 } : CacheState α) =
          s' := congrArg (fun p => p.2.1) h
      have heffs : ([] : List (Eff (CVal α))) = effs :=
        congrArg (fun p => p.2.2) h
      subst hs'
      subst heffs
      exact ⟨hpair, Or.inl rfl⟩
    | some cv =>
      cases hmv : Store.get? s.db (metaKey key) with
      | none =>
        exfalso
        have h := hpair key
        rw [hcv, hmv] at h
        exact absurd h (by simp)
      | some mv =>
        have hmmeta : ∃ m, mv = CVal.meta m := by
          have hmem : (metaKey key, mv) ∈ s.db :=
            Store.mem_of_get?_eq_some hmv
          rcases hshape _ hmem with ⟨k', v', hkv⟩ | ⟨m, hm⟩
          · exfalso
            have h1 := congrArg Prod.fst hkv
            exact cacheKey_ne_metaKey k' key h1.symm
          · exact ⟨m, by simpa using congrArg Prod.snd hm⟩
        obtain ⟨m, hm⟩ := hmmeta
        rw [hm] at hmv
        by_cases hexp : now < m.expires_at
        · have hval : ∃ v, cv = CVal.val v := by
            have hmem : (cacheKey key, cv) ∈ s.db :=
              Store.mem_of_get?_eq_some hcv
            rcases hshape _ hmem with ⟨k', v', hkv⟩ | ⟨m', hm'⟩
            · exact ⟨v', by simpa using congrArg Prod.snd hkv⟩
            · exfalso
              have h1 := congrArg Prod.fst hm'
              exact cacheKey_ne_metaKey key m'.key h1
          obtain ⟨v, hvv⟩ := hval
          rw [hvv] at hcv
          rw [cache_get_hit dflt vsize now key s hcv hmv hexp] at hres
          have h := Option.some_inj.mp hres
          have hs' : ({ s with hits := s.hits + 1 } : CacheState α) =
              s' := congrArg (fun p => p.2.1) h
          have heffs : ([] : List (Eff (CVal α))) = effs :=
            congrArg (fun p => p.2.2) h
          subst hs'
          subst heffs
          exact ⟨hpair, Or.inl rfl⟩
        · rw [cache_get_expired dflt vsize now key s hcv hmv
            (le_of_not_lt hexp)] at hres
          have h := Option.some_inj.mp hres
          have hs' : ({ s with
              db := Store.del (Store.del s.db (cacheKey key))
                (metaKey key)
              misses := s.misses + 1 } : CacheState α) = s' :=
            congrArg (fun p => p.2.1) h
          have heffs : ([Eff.point (Op.del (cacheKey key)),
              Eff.point (Op.del (metaKey key))] :
              List (Eff (CVal α))) = effs :=
            congrArg (fun p => p.2.2) h
          subst hs'
          subst heffs
          refine ⟨?_, Or.inr rfl⟩
          intro k
          show (Store.get? (Store.del (Store.del s.db (cacheKey key))
              (metaKey key)) (cacheKey k)).isSome =
            (Store.get? (Store.del (Store.del s.db (cacheKey key))
              (metaKey key)) (metaKey k)).isSome
          by_cases hk : k = key
          · rw [hk, Store.get?_del_ne _
                (fun h => cacheKey_ne_metaKey key key h),
              Store.get?_del_self, Store.get?_del_self]
          · rw [Store.get?_del_ne _
                (fun h => cacheKey_ne_metaKey k key h),
              Store.get?_del_ne _ (fun h => hk (cacheKey_inj h)),
              Store.get?_del_ne _ (fun h => hk (metaKey_inj h)),
              Store.get?_del_ne _
                (fun h => cacheKey_ne_metaKey key k h.symm)]
            exact hpair k

theorem atomic_pairing_witness :
    (CacheLayer.set 5 (fun _ : Bool => 1) 7 "x" true none
        (⟨[(cacheKey "x", CVal.val true),
           (metaKey "x", CVal.meta ⟨"x", 0, 4, 4, 1⟩)],
          0, 0, 0, 0⟩ : CacheState Bool)).2 =
      [Eff.batch [Op.put (cacheKey "x") (CVal.val true),
        Op.put (metaKey "x") (CVal.meta
          ⟨"x", 7, 7 + resolveTtl (none : Option Int) 5,
            resolveTtl (none : Option Int) 5, 1⟩)]] ∧
    (CacheLayer.delete "x"
        (⟨[(cacheKey "x", CVal.val true),
           (metaKey "x", CVal.meta ⟨"x", 0, 4, 4, 1⟩)],
          0, 0, 0, 0⟩ : CacheState Bool)).2 =
      [Eff.batch [Op.del (cacheKey "x"), Op.del (metaKey "x")]] ∧
    (Store.get? (CacheLayer.delete "x"
        (⟨[(cacheKey "x", CVal.val true),
           (metaKey "x", CVal.meta ⟨"x", 0, 4, 4, 1⟩)],
          0, 0, 0, 0⟩ : CacheState Bool)).1.db (cacheKey "x")).isSome =
      (Store.get? (CacheLayer.delete "x"
        (⟨[(cacheKey "x", CVal.val true),
           (metaKey "x", CVal.meta ⟨"x", 0, 4, 4, 1⟩)],
          0, 0, 0, 0⟩ : CacheState Bool)).1.db (metaKey "x")).isSome ∧
    (CacheLayer.warm_cache 5 (fun _ : Bool => 1) 7 [("y", false)] none
        (⟨[(cacheKey "x", CVal.val true),
           (metaKey "x", CVal.meta ⟨"x", 0, 4, 4, 1⟩)],
          0, 0, 0, 0⟩ : CacheState Bool)).2.2 =
      [Eff.batch [Op.put (cacheKey "y") (CVal.val false),
        Op.put (metaKey "y") (CVal.meta
          ⟨"y", 7, 7 + resolveTtl (none : Option Int) 5,
            resolveTtl (none : Option Int) 5, 1⟩)]] ∧
    (Store.get? (CacheLayer.warm_cache 5 (fun _ : Bool => 1) 7
        [("y", false)] none
        (⟨[(cacheKey "x", CVal.val true),
           (metaKey "x", CVal.meta ⟨"x", 0, 4, 4, 1⟩)],
          0, 0, 0, 0⟩ : CacheState Bool)).2.1.db (cacheKey "y")).isSome =
      (Store.get? (CacheLayer.warm_cache 5 (fun _ : Bool => 1) 7
        [("y", false)] none
        (⟨[(cacheKey "x", CVal.val true),
           (metaKey "x", CVal.meta ⟨"x", 0, 4, 4, 1⟩)],
          0, 0, 0, 0⟩ : CacheState Bool)).2.1.db (metaKey "y")).isSome ∧
    isAtomic ([Eff.batch [Op.del (cacheKey "x"), Op.del (metaKey "x")]] :
      List (Eff (CVal Bool))) = true ∧
    (([Eff.point (Op.del (cacheKey "x")),
       Eff.point (Op.del (metaKey "x"))] : List (Eff (CVal Bool))) =
        [] ∨
      ([Eff.point (Op.del (cacheKey "x")),
        Eff.point (Op.del (metaKey "x"))] : List (Eff (CVal Bool))) =
        [Eff.point (Op.del (cacheKey "x")),
          Eff.point (Op.del (metaKey "x"))]) := by
  have h := atomic_pairing 5 (fun _ : Bool => 1) 7 "x" true none
      [("y", false)]
      (⟨[(cacheKey "x", CVal.val true),
         (metaKey "x", CVal.meta ⟨"x", 0, 4, 4, 1⟩)],
        0, 0, 0, 0⟩ : CacheState Bool)
      (by
        intro k
        by_cases hk : k = "x"
        · subst hk
          rfl
        · show (Store.get? [(cacheKey "x", CVal.val true),
              (metaKey "x", CVal.meta ⟨"x", 0, 4, 4, 1⟩)]
              (cacheKey k)).isSome =
            (Store.get? [(cacheKey "x", CVal.val true),
              (metaKey "x", CVal.meta ⟨"x", 0, 4, 4, 1⟩)]
              (metaKey k)).isSome
          rw [Store.get?_cons,
            if_neg (fun h1 => hk (cacheKey_inj h1).symm),
            Store.get?_cons,
            if_neg (fun h1 => cacheKey_ne_metaKey k "x" h1.symm),
            Store.get?_cons,
            if_neg (fun h1 => cacheKey_ne_metaKey "x" k h1),
            Store.get?_cons,
            if_neg (fun h1 => hk (metaKey_inj h1).symm)]
          rfl)
      (WF_of_WFb (by decide))
      (by
        intro e he
        rcases List.mem_cons.mp he with h1 | he
        · exact Or.inl ⟨"x", true, h1⟩
        rcases List.mem_cons.mp he with h1 | he
        · exact Or.inr ⟨⟨"x", 0, 4, 4, 1⟩, h1⟩
        · exact absurd he (List.not_mem_nil _))
  refine ⟨h.1.1, h.2.1.1, h.2.1.2 "x", h.2.2.1.1, h.2.2.1.2 "y",
    ?_, ?_⟩
  · exact (h.2.2.2.1 1 (⟨[], 0, 0, 0, 1⟩ : CacheState Bool)
      [Eff.batch [Op.del (cacheKey "x"), Op.del (metaKey "x")]]
      (by decide)).1
  · exact (h.2.2.2.2 none (⟨[], 0, 1, 0, 0⟩ : CacheState Bool)
      [Eff.point (Op.del (cacheKey "x")),
        Eff.point (Op.del (metaKey "x"))] (by decide)).2

end YellowDB